import Mathlib

/-!
Shallow embedding of the imperative repository's credential manager
(`packages/security/src/DefaultCredentialManager.ts`) and of the layered
Config merge / set operations exercised by the repository's Config tests.

Strings of the TypeScript source are modelled as lists of characters
(`Str`), the OS credential vault (keytar) as an association list of
(service, account, value) entries, and the `while` / `do-while` loops of
the source as fuel-indexed structural recursions.  For the loops that the
source guarantees to terminate (chunked write, chunked delete), wrappers
pass a fuel that always suffices, so the wrapper equals the source loop on
every input.  The chunk-reading loop of `getCredentialsHelper` can really
diverge, so it keeps an explicit fuel and returns `none` when the fuel runs
out; termination of the source loop is existence of a sufficient fuel.
-/

/-- Character strings of the TypeScript source, modelled as lists of characters. -/
abbrev Str := List Char

/-- The null character, used by the source as the chunk terminator (`'\0'`). -/
def nulChar : Char := Char.ofNat 0

/-- Decide whether `p` is a character-wise prefix of `s`. -/
def isPfx : Str → Str → Bool
  | [], _ => true
  | _ :: _, [] => false
  | p :: ps, c :: cs => if p = c then isPfx ps cs else false

/-- JS `String.prototype.endsWith`: `pat` is a suffix of `s`. -/
def endsWithStr (s pat : Str) : Bool := isPfx pat.reverse s.reverse

/-- JS `String.prototype.replace` with a string pattern: replace the first
occurrence of `pat` in `s` by `rep` (the whole string is returned unchanged
when `pat` does not occur). -/
def replaceFirst : Str → Str → Str → Str
  | [], pat, rep => if isPfx pat [] then rep else []
  | c :: cs, pat, rep =>
    if isPfx pat (c :: cs) then rep ++ (c :: cs).drop pat.length
    else c :: replaceFirst cs pat rep

/-- Decimal digit character (`0` ↦ `'0'`, …, `9` ↦ `'9'`). -/
def digitToChar (d : Nat) : Char := Char.ofNat (48 + d)

/-- Fuel-indexed decimal rendering of a natural number. -/
def natCharsF : Nat → Nat → Str
  | 0, _ => []
  | fuel + 1, n =>
    if n < 10 then [digitToChar n]
    else natCharsF fuel (n / 10) ++ [digitToChar (n % 10)]

/-- Decimal rendering of a natural number (the JS template `${index}`).
The fuel `n + 1` always suffices because the argument is divided by ten at
every step. -/
def natChars (n : Nat) : Str := natCharsF (n + 1) n

/-- Left inverse of `natChars`, used only to prove it injective. -/
def charsToNat (l : Str) : Nat := l.foldl (fun acc c => acc * 10 + (c.toNat - 48)) 0

/-- One vault entry: keytar keys credentials by service and account. -/
structure Entry where
  service : Str
  account : Str
  value : Str
deriving DecidableEq

/-- The OS credential vault, as a finite list of entries. -/
abbrev Vault := List Entry

/-- keytar `getPassword`: first entry matching the (service, account) key. -/
def getPassword (kv : Vault) (s a : Str) : Option Str :=
  match kv with
  | [] => none
  | e :: rest =>
    if e.service = s ∧ e.account = a then some e.value else getPassword rest s a

/-- keytar `deletePassword`: remove the entries with the given key; the
boolean reports whether anything was deleted. -/
def deletePassword (kv : Vault) (s a : Str) : Bool × Vault :=
  match kv with
  | [] => (false, [])
  | e :: rest =>
    if e.service = s ∧ e.account = a then (true, (deletePassword rest s a).2)
    else ((deletePassword rest s a).1, e :: (deletePassword rest s a).2)

/-- keytar `setPassword`: overwrite the value stored under the key. -/
def setPassword (kv : Vault) (s a v : Str) : Vault :=
  ⟨s, a, v⟩ :: (deletePassword kv s a).2

/-- Errors of the source (`ImperativeError`): a message, optional cause
(`causeErrors`), optional details, and the report-suppression flag. -/
structure ImperativeError where
  msg : String
  causeErrors : Option String := none
  additionalDetails : Option String := none
  suppressReport : Bool := false
deriving DecidableEq

/-- The service name of the built-in credential manager (`SVC_NAME = "Zowe"`). -/
def SVC_NAME : Str := "Zowe".toList

/-- Historical service `@zowe/cli`. -/
def zoweCliService : Str := "@zowe/cli".toList

/-- Historical service `Zowe-Plugin`. -/
def zowePluginService : Str := "Zowe-Plugin".toList

/-- Historical service `Broadcom-Plugin`. -/
def broadcomPluginService : Str := "Broadcom-Plugin".toList

/-- State of a `DefaultCredentialManager` instance: its service identity,
whether the keytar module was successfully bound, and the load failure
recorded by `initialize` when binding failed. -/
structure DefaultCredentialManager where
  service : Str
  keytarLoaded : Bool := false
  loadError : Option ImperativeError := none
deriving DecidableEq

/-- The priority-ordered service list built by the constructor: the current
service, then (when it differs) `SVC_NAME`, then the historical services. -/
def allServices (service : Str) : List Str :=
  (service :: (if service = SVC_NAME then [] else [SVC_NAME]))
    ++ [zoweCliService, zowePluginService, broadcomPluginService]

/-- The source's `initialize`: binding keytar is abstracted by its outcome.
On failure the cause is recorded in `loadError` (the function's total type
shows that no error is thrown at this point). -/
def initializeCredMgr (mgr : DefaultCredentialManager) (outcome : Except String Unit) :
    DefaultCredentialManager :=
  match outcome with
  | .ok _ => { mgr with keytarLoaded := true }
  | .error e => { mgr with loadError := some { msg := "Keytar not Installed", causeErrors := some e } }

/-- The source's `checkForKeytar`: fail with the recorded load error (or a
generic suppressed-report error) when keytar is not bound. -/
def checkForKeytar (mgr : DefaultCredentialManager) : Except ImperativeError Unit :=
  if mgr.keytarLoaded then .ok ()
  else
    match mgr.loadError with
    | none =>
      .error { msg := "Keytar was not properly loaded due to an unknown cause.",
               suppressReport := true }
    | some e => .error e

/-- Maximum credential string length on Windows (`WIN32_CRED_MAX_STRING_LENGTH`). -/
def WIN32_CRED_MAX_STRING_LENGTH : Nat := 2560

/-- The chunk account name `${account}-${index}`. -/
def chunkAccount (account : Str) (index : Nat) : Str :=
  account ++ '-' :: natChars index

/-- JS `value.endsWith('\0')`. -/
def endsWithNul (l : Str) : Bool := decide (l.getLast? = some nulChar)

/-- JS `value.replace(/\0$/, "")`: strip one trailing null character. -/
def stripTrailingNul (l : Str) : Str := if endsWithNul l then l.dropLast else l

/-- The `do`/`while` chunk-reading loop of `getCredentialsHelper`: read
`account-index`, append when present, continue while the accumulated value
is non-null and not yet null-terminated.  The outer `none` means the fuel
ran out, i.e. the source loop has not exited within `fuel` iterations. -/
def getChunksLoop (kv : Vault) (service account : Str) :
    Nat → Nat → Option Str → Option (Option Str)
  | 0, _, _ => none
  | fuel + 1, index, value =>
    let tempValue := getPassword kv service (chunkAccount account index)
    let value' : Option Str :=
      match tempValue with
      | some t => some (value.getD [] ++ t)
      | none => value
    match value' with
    | none => some none
    | some l => if endsWithNul l then some (some l) else getChunksLoop kv service account fuel (index + 1) (some l)

/-- The source's `getCredentialsHelper`: try the single-field entry, and on
Windows fall back to reassembling the numbered chunk entries.  `none` means
the chunk loop ran out of fuel. -/
def getCredentialsHelper (win32 : Bool) (kv : Vault) (service account : Str) (fuel : Nat) :
    Option (Option Str) :=
  match getPassword kv service account with
  | some v => some (some v)
  | none =>
    if win32 then
      match getChunksLoop kv service account fuel 1 none with
      | none => none
      | some v => some (v.map stripTrailingNul)
    else some none

/-- The chunk-writing `while (value.length > 0)` loop of
`setCredentialsHelper`.  The fuel is supplied by the wrapper and always
suffices, because every iteration strictly shortens the remaining value. -/
def writeChunksLoop (service account : Str) : Nat → Vault → Str → Nat → Vault
  | 0, kv, _, _ => kv
  | fuel + 1, kv, value, index =>
    if value.length = 0 then kv
    else
      writeChunksLoop service account fuel
        (setPassword kv service (chunkAccount account index) (value.take WIN32_CRED_MAX_STRING_LENGTH))
        (value.drop WIN32_CRED_MAX_STRING_LENGTH) (index + 1)

/-- The source's `setCredentialsHelper`: on Windows an oversized value is
deleted and rewritten as null-terminated numbered chunks, otherwise the
single-field entry is written. -/
def setCredentialsHelper (win32 : Bool) (kv : Vault) (service account value : Str) : Vault :=
  if win32 ∧ WIN32_CRED_MAX_STRING_LENGTH < value.length then
    writeChunksLoop service account (value.length + 2)
      (deletePassword kv service account).2 (value ++ [nulChar]) 1
  else setPassword kv service account value

/-- The chunk-deleting `while (deletePassword(...))` loop of
`deleteCredentialsHelper`; returns the final index together with the vault.
The wrapper passes fuel `kv.length + 1`, which always suffices because every
successful deletion removes at least one entry. -/
def deleteChunksLoop (account : Str) : Nat → Vault → Nat → Nat × Vault
  | 0, kv, index => (index, kv)
  | fuel + 1, kv, index =>
    let r := deletePassword kv SVC_NAME (chunkAccount account index)
    if r.1 then deleteChunksLoop account fuel r.2 (index + 1) else (index, kv)

/-- The `for (const service of this.allServices)` deletion loop of
`deleteCredentialsHelper`: delete the account under every service, skipping
`SVC_NAME` when `keepCurrentSvc` is set. -/
def deleteFromServices (account : Str) (keep : Bool) :
    List Str → Vault → Bool → Bool × Vault
  | [], kv, wasDeleted => (wasDeleted, kv)
  | s :: rest, kv, wasDeleted =>
    if keep ∧ s = SVC_NAME then deleteFromServices account keep rest kv wasDeleted
    else
      let r := deletePassword kv s account
      deleteFromServices account keep rest r.2 (wasDeleted || r.1)

/-- The source's `deleteCredentialsHelper`: delete the account under all
services (honouring `keepCurrentSvc`), then on Windows delete the numbered
chunk entries stored under `SVC_NAME`. -/
def deleteCredentialsHelper (win32 : Bool) (mgr : DefaultCredentialManager)
    (kv : Vault) (account : Str) (keep : Bool) : Bool × Vault :=
  let r := deleteFromServices account keep (allServices mgr.service) kv false
  if win32 then
    let d := deleteChunksLoop account (r.2.length + 1) r.2 1
    (r.1 ∨ 1 < d.1, d.2)
  else r

/-- The source's `deleteCredentials`: check keytar, then run the helper. -/
def deleteCredentials (win32 : Bool) (mgr : DefaultCredentialManager)
    (kv : Vault) (account : Str) : Except ImperativeError Vault :=
  match checkForKeytar mgr with
  | .error e => .error e
  | .ok _ => .ok (deleteCredentialsHelper win32 mgr kv account false).2

/-- Legacy account-name suffix `_username` (Zowe v1 → v2 read compatibility). -/
def usernameSuffix : Str := "_username".toList

/-- Modern replacement `_user` for the legacy `_username` suffix. -/
def userSuffix : Str := "_user".toList

/-- Legacy account-name suffix `_pass` (Zowe v0 → v1 read compatibility). -/
def passSuffix : Str := "_pass".toList

/-- Modern replacement `_password` for the legacy `_pass` suffix. -/
def passwordSuffix : Str := "_password".toList

/-- The `loadHelper` closure of `loadCredentials`: chunk-aware lookup under
one service, then the legacy `_username` → `_user` and `_pass` → `_password`
read-only retries.  The outer `none` propagates chunk-loop fuel exhaustion. -/
def loadHelper (win32 : Bool) (kv : Vault) (service account : Str) (fuel : Nat) :
    Option (Option Str) :=
  match getCredentialsHelper win32 kv service account fuel with
  | none => none
  | some secureValue =>
    let v1 : Option Str :=
      match secureValue with
      | none =>
        if endsWithStr account usernameSuffix then
          getPassword kv service (replaceFirst account usernameSuffix userSuffix)
        else none
      | some v => some v
    let v2 : Option Str :=
      match v1 with
      | none =>
        if endsWithStr account passSuffix then
          getPassword kv service (replaceFirst account passSuffix passwordSuffix)
        else none
      | some v => some v
    some v2

/-- The `for (const nextService of this.allServices)` loop of
`loadCredentials`: first non-null hit wins. -/
def loadLoop (win32 : Bool) (kv : Vault) (account : Str) (fuel : Nat) :
    List Str → Option (Option Str)
  | [] => some none
  | s :: rest =>
    match loadHelper win32 kv s account fuel with
    | none => none
    | some (some v) => some (some v)
    | some none => loadLoop win32 kv account fuel rest

/-- The source's `getMissingEntryMessage`. -/
def getMissingEntryMessage (services : List Str) (account : Str) : String :=
  let listOfServices :=
    services.foldl (fun acc s => acc ++ s.asString ++ ", ") "  Service = "
  let listOfServices :=
    ⟨listOfServices.toList.dropLast.dropLast⟩ ++ "\n  Account = " ++ account.asString ++ "\n\n"
  "Could not find an entry in the credential vault for the following:\n" ++
    listOfServices ++
    "Possible Causes:\n" ++
    "  This could have been caused by any manual removal of credentials from your vault.\n\n" ++
    "Resolutions: \n" ++
    "  Recreate the credentials in the vault for the particular service in the vault.\n"

/-- The error thrown when a required load finds nothing in any service. -/
def missingEntryError (mgr : DefaultCredentialManager) (account : Str) : ImperativeError :=
  { msg := "Unable to load credentials.",
    additionalDetails := some (getMissingEntryMessage (allServices mgr.service) account) }

/-- The source's `loadCredentials`: check keytar, try every service in
priority order, and fail on a required read that found nothing.  The outer
`none` propagates chunk-loop fuel exhaustion (source-level divergence). -/
def loadCredentials (win32 : Bool) (mgr : DefaultCredentialManager) (kv : Vault)
    (account : Str) (optional : Bool) (fuel : Nat) :
    Option (Except ImperativeError (Option Str)) :=
  match checkForKeytar mgr with
  | .error e => some (.error e)
  | .ok _ =>
    match loadLoop win32 kv account fuel (allServices mgr.service) with
    | none => none
    | some secValue =>
      if secValue = none ∧ ¬optional then some (.error (missingEntryError mgr account))
      else some (.ok secValue)

/-- The source's `saveCredentials`: check keytar, delete the pre-existing
entries for the account (keeping the `SVC_NAME` single entry for the
overwrite), then write under the current service. -/
def saveCredentials (win32 : Bool) (mgr : DefaultCredentialManager) (kv : Vault)
    (account value : Str) : Except ImperativeError Vault :=
  match checkForKeytar mgr with
  | .error e => .error e
  | .ok _ =>
    .ok (setCredentialsHelper win32
      (deleteCredentialsHelper win32 mgr kv account true).2 mgr.service account value)

/-- Fuel-indexed splitting of a string into chunks of
`WIN32_CRED_MAX_STRING_LENGTH` characters; proof-side mirror of the
chunk-writing loop. -/
def chunkifyF : Nat → Str → List Str
  | 0, _ => []
  | fuel + 1, w =>
    if w.length = 0 then []
    else w.take WIN32_CRED_MAX_STRING_LENGTH ::
      chunkifyF fuel (w.drop WIN32_CRED_MAX_STRING_LENGTH)

/-- Concatenation of the values of the chunk entries `account-i`,
`account-(i+1)`, …, taking `m` consecutive indices and skipping the missing
ones, exactly as the reading loop accumulates them. -/
def accFrom (kv : Vault) (service account : Str) : Nat → Nat → Str
  | _, 0 => []
  | i, m + 1 => (getPassword kv service (chunkAccount account i)).getD [] ++ accFrom kv service account (i + 1) m

/-- Termination of the source's chunk-reading loop on a given vault state:
some fuel makes the loop exit. -/
def chunkLoopTerminates (kv : Vault) (service account : Str) : Prop :=
  ∃ fuel, (getChunksLoop kv service account fuel 1 none).isSome

/-- Modelled from the spec: JSON values of a configuration layer (the Config
class source is not part of the provided sources; only its tests are).  A
value is a boolean, number, string, array, or object with ordered fields. -/
inductive CVal where
  | vbool (b : Bool)
  | vnum (n : Int)
  | vstr (s : String)
  | varr (xs : List CVal)
  | vobj (fields : List (String × CVal))

/-- Field lists of a JSON object. -/
abbrev CFields := List (String × CVal)

/-- Lookup of a key in an object's field list (first match). -/
def assocGet (fields : CFields) (k : String) : Option CVal :=
  match fields with
  | [] => none
  | (k', v) :: rest => if k' = k then some v else assocGet rest k

/-- Remove every binding of a key from an object's field list. -/
def assocRemove (fields : CFields) (k : String) : CFields :=
  match fields with
  | [] => []
  | (k', v) :: rest => if k' = k then assocRemove rest k else (k', v) :: assocRemove rest k

/-- Replace the first binding of a key, or append a new binding. -/
def assocSet (fields : CFields) (k : String) (v : CVal) : CFields :=
  match fields with
  | [] => [(k, v)]
  | (k', w) :: rest => if k' = k then (k, v) :: rest else (k', w) :: assocSet rest k v

mutual
/-- Modelled from the spec: the deep merge of two layer trees, the earlier
(higher-precedence) argument's leaf values winning on conflict; two objects
merge recursively, any other combination keeps the higher-precedence value. -/
def dmerge (a b : CVal) : CVal :=
  match a, b with
  | .vobj fa, .vobj fb => .vobj (dmergeFields fa fb)
  | a, _ => a
termination_by sizeOf a
decreasing_by simp_wf

/-- Deep merge of two field lists: common keys merge recursively, keys of
the higher-precedence list keep their order, remaining lower-precedence
keys follow. -/
def dmergeFields (fa fb : CFields) : CFields :=
  match fa, fb with
  | [], fb => fb
  | (k, va) :: fa, fb =>
    match assocGet fb k with
    | some vb => (k, dmerge va vb) :: dmergeFields fa (assocRemove fb k)
    | none => (k, va) :: dmergeFields fa fb
termination_by sizeOf fa
decreasing_by all_goals simp_wf <;> omega
end

/-- Modelled from the spec: the merged read view of an ordered list of layer
trees, highest precedence first. -/
def foldMergeF (ls : List CFields) : CFields :=
  match ls with
  | [] => []
  | f :: rest => dmergeFields f (foldMergeF rest)

/-- Fields of a possibly-absent layer: an absent layer contributes the empty
skeleton (`profiles: {}` etc.). -/
def layerFields (o : Option CFields) : CFields := o.getD []

/-- Modelled from the spec: the merged view over the four canonical layers in
precedence order project-user > project > global-user > global. -/
def config4Merge (l0 l1 l2 l3 : Option CFields) : CFields :=
  foldMergeF [layerFields l0, layerFields l1, layerFields l2, layerFields l3]

/-- Dotted-path lookup in a layer tree. -/
def getPath : List String → CVal → Option CVal
  | [], v => some v
  | k :: rest, v =>
    match v with
    | .vobj fields =>
      match assocGet fields k with
      | some w => getPath rest w
      | none => none
    | _ => none

/-- Along a dotted path, every node actually traversed is an object (a
missing key ends the walk successfully): the layer cannot shadow deeper
values of lower-precedence layers with a non-object leaf. -/
def objAlong : List String → CVal → Bool
  | [], _ => true
  | k :: rest, v =>
    match v with
    | .vobj fields =>
      match assocGet fields k with
      | some w => objAlong rest w
      | none => true
    | _ => false

/-- Test for an array value. -/
def isArrV : CVal → Bool
  | .varr _ => true
  | _ => false

/-- Test for an object value. -/
def isObjV : CVal → Bool
  | .vobj _ => true
  | _ => false

/-- Modelled from the spec: a string matching an integer pattern (optional
leading minus sign, then decimal digits). -/
def isIntString (s : String) : Bool :=
  match s.toList with
  | [] => false
  | c :: cs =>
    if c = '-' then !cs.isEmpty && cs.all Char.isDigit
    else (c :: cs).all Char.isDigit

/-- Value of a decimal digit list. -/
def digitsVal (l : List Char) : Nat := l.foldl (fun acc c => acc * 10 + (c.toNat - 48)) 0

/-- Modelled from the spec: integer value of a string matching the integer
pattern. -/
def parseIntStr (s : String) : Int :=
  match s.toList with
  | '-' :: cs => -(digitsVal cs : Int)
  | cs => (digitsVal cs : Int)

/-- Modelled from the spec: value coercion of `Config.set` — the literal
strings `"true"` / `"false"` coerce to booleans, an integer-pattern string
coerces to a number, all other values are unchanged. -/
def coerceScalar : CVal → CVal
  | .vstr s =>
    if s = "true" then .vbool true
    else if s = "false" then .vbool false
    else if isIntString s then .vnum (parseIntStr s)
    else .vstr s
  | v => v

/-- Modelled from the spec: `Config.set` against the active layer's
properties.  Intermediate path segments are created as empty objects on
demand; at the final segment a passed array replaces the target outright,
a scalar appends to an existing array value, and otherwise the coerced
value replaces the current one. -/
def setPath (p : List String) (value : CVal) (fields : CFields) : CFields :=
  match p with
  | [] => fields
  | [k] =>
    if isArrV value then assocSet fields k value
    else
      match assocGet fields k with
      | some (.varr xs) => assocSet fields k (.varr (xs ++ [coerceScalar value]))
      | _ => assocSet fields k (coerceScalar value)
  | k :: rest =>
    match assocGet fields k with
    | some (.vobj sub) => assocSet fields k (.vobj (setPath rest value sub))
    | _ => assocSet fields k (.vobj (setPath rest value []))

/-- Along a dotted path each strict-prefix node is an object where defined
(missing intermediate nodes are fine: `set` creates them). -/
def setSpine : List String → CFields → Bool
  | [], _ => true
  | [_], _ => true
  | k :: rest, fields =>
    match assocGet fields k with
    | some (.vobj sub) => setSpine rest sub
    | some _ => false
    | none => true

/-- Witness input: a concrete manager bound to keytar under the built-in
service name. -/
def mgrW : DefaultCredentialManager := { service := SVC_NAME, keytarLoaded := true }

/-- Witness input: a concrete account name. -/
def acctW : Str := "secure_config_props".toList

/-- Witness input: an oversized null-free credential value. -/
def vBigW : Str := List.replicate 2561 'a'

/-- Counterexample input: an oversized value with a null character exactly at
the first chunk boundary. -/
def vNulBoundary : Str := List.replicate 2559 'a' ++ [nulChar, 'b']

/-- Vault obtained by saving `vBigW` for `acctW` into an empty vault. -/
def kvBigW : Vault :=
  match saveCredentials true mgrW [] acctW vBigW with
  | .ok kv => kv
  | .error _ => []

/-- Vault obtained by saving `vNulBoundary` for `acctW` into an empty vault. -/
def kvNulBoundary : Vault :=
  match saveCredentials true mgrW [] acctW vNulBoundary with
  | .ok kv => kv
  | .error _ => []

/-- Vault obtained by deleting `acctW` from `kvBigW`. -/
def kvBigDeleted : Vault :=
  match deleteCredentials true mgrW kvBigW acctW with
  | .ok kv => kv
  | .error _ => kvBigW

/-- Counterexample vault for the chunk-loop termination claim: chunk 1 is
present without a terminator, chunk 2 is missing, chunk 3 carries the
terminator. -/
def gapVault : Vault :=
  [⟨SVC_NAME, chunkAccount acctW 1, ['a']⟩,
   ⟨SVC_NAME, chunkAccount acctW 3, [nulChar]⟩]

/-- The error recorded when keytar fails to load, carrying the cause. -/
def keytarNotInstalledErr (cause : String) : ImperativeError :=
  { msg := "Keytar not Installed", causeErrors := some cause }

/-- Witness input: a short credential value. -/
def vSmall : Str := "hunter2".toList

/-- Witness input: a vault holding a stale entry for `acctW` under the
historical `@zowe/cli` service. -/
def kvOld : Vault := [⟨zoweCliService, acctW, "oldpw".toList⟩]

/-- Vault obtained by saving `vSmall` for `acctW` over `kvOld` (non-Windows,
single-field path). -/
def kvSavedSmall : Vault :=
  match saveCredentials false mgrW kvOld acctW vSmall with
  | .ok kv => kv
  | .error _ => []

/-- Witness input: a vault whose only entry for `acctW` lives under the
historical `Zowe-Plugin` service. -/
def kvPlugin : Vault := [⟨zowePluginService, acctW, vSmall⟩]

/-- Manager state after an `initialize` whose keytar binding failed. -/
def mgrFailed : DefaultCredentialManager :=
  initializeCredMgr { service := SVC_NAME } (.error "Cannot find module keytar")

/-- Witness input: a legacy account name with the deprecated `_username` suffix. -/
def acctUserLegacy : Str := "my_profile_username".toList

/-- Witness input: a vault holding the value only under the rewritten
`_user` account name. -/
def kvLegacy : Vault := [⟨SVC_NAME, "my_profile_user".toList, vSmall⟩]

theorem isPfx_exists {p s : Str} : isPfx p s = true ↔ ∃ t, s = p ++ t := by
  induction p generalizing s with
  | nil => simp [isPfx]
  | cons c cs ih =>
    cases s with
    | nil => simp [isPfx]
    | cons d ds =>
      simp only [isPfx]
      split
      · next h => subst h; simpa using ih
      · next h =>
        simp only [List.cons_append, Bool.false_eq_true, false_iff, not_exists]
        intro t hct
        exact h (by injection hct with h1 _; exact h1.symm)

theorem endsWithStr_exists {s pat : Str} : endsWithStr s pat = true ↔ ∃ u, s = u ++ pat := by
  unfold endsWithStr
  rw [isPfx_exists]
  constructor
  · rintro ⟨t, ht⟩
    refine ⟨t.reverse, ?_⟩
    have := congrArg List.reverse ht
    simpa [List.reverse_append] using this
  · rintro ⟨u, hu⟩
    exact ⟨u.reverse, by simp [hu, List.reverse_append]⟩

theorem isPfx_length_le {p s : Str} (h : isPfx p s = true) : p.length ≤ s.length := by
  rcases isPfx_exists.mp h with ⟨t, rfl⟩
  simp

theorem isPfx_self (s : Str) : isPfx s s = true :=
  isPfx_exists.mpr ⟨[], by simp⟩

theorem replaceFirst_length {s pat rep : Str} (hp : pat ≠ [])
    (he : endsWithStr s pat = true) :
    (replaceFirst s pat rep).length + pat.length = s.length + rep.length := by
  induction s with
  | nil =>
    rcases endsWithStr_exists.mp he with ⟨u, hu⟩
    exact absurd (List.append_eq_nil.mp hu.symm).2.symm (Ne.symm hp)
  | cons c cs ih =>
    cases hpf : isPfx pat (c :: cs) with
    | true =>
      have hle := isPfx_length_le hpf
      simp only [replaceFirst, hpf, if_true, List.length_append, List.length_drop]
      omega
    | false =>
      have hne : pat ≠ c :: cs := by
        intro h; rw [h] at hpf; rw [isPfx_self] at hpf; cases hpf
      have he' : endsWithStr cs pat = true := by
        rcases endsWithStr_exists.mp he with ⟨u, hu⟩
        cases u with
        | nil => exact absurd (by simpa using hu) hne.symm
        | cons d ds =>
          refine endsWithStr_exists.mpr ⟨ds, ?_⟩
          injection hu with _ h2
      have := ih he'
      simp only [replaceFirst, hpf, Bool.false_eq_true, if_false, List.length_cons]
      omega

theorem replaceFirst_length_lt {s pat rep : Str} (hp : pat ≠ [])
    (hlt : rep.length < pat.length) (he : endsWithStr s pat = true) :
    (replaceFirst s pat rep).length < s.length := by
  have := @replaceFirst_length s pat rep hp he
  omega

theorem digitToChar_toNat {d : Nat} (hd : d < 10) : (digitToChar d).toNat = 48 + d := by
  have hv : Nat.isValidChar (48 + d) := Or.inl (by omega)
  simp only [digitToChar, Char.ofNat, hv, dif_pos]
  rfl

theorem charsToNat_append (l : Str) (c : Char) :
    charsToNat (l ++ [c]) = charsToNat l * 10 + (c.toNat - 48) := by
  simp [charsToNat, List.foldl_append]

theorem charsToNat_natCharsF : ∀ fuel n, n < fuel → charsToNat (natCharsF fuel n) = n := by
  intro fuel
  induction fuel with
  | zero => intro n h; omega
  | succ fuel ih =>
    intro n h
    by_cases h10 : n < 10
    · simp only [natCharsF, h10, if_true]
      have := digitToChar_toNat h10
      simp [charsToNat, this]
    · have hdiv : n / 10 < fuel := by
        have h1 : n / 10 < n := Nat.div_lt_self (by omega) (by omega)
        omega
      simp only [natCharsF, h10, if_false]
      rw [charsToNat_append, ih _ hdiv, digitToChar_toNat (Nat.mod_lt n (by omega))]
      omega

theorem charsToNat_natChars (n : Nat) : charsToNat (natChars n) = n :=
  charsToNat_natCharsF (n + 1) n (by omega)

theorem natChars_inj {m n : Nat} (h : natChars m = natChars n) : m = n := by
  have := congrArg charsToNat h
  rwa [charsToNat_natChars, charsToNat_natChars] at this

theorem natCharsF_ne_nil : ∀ fuel n, 0 < fuel → natCharsF fuel n ≠ [] := by
  intro fuel n h
  cases fuel with
  | zero => omega
  | succ fuel =>
    by_cases h10 : n < 10 <;> simp [natCharsF, h10]

theorem natChars_ne_nil (n : Nat) : natChars n ≠ [] :=
  natCharsF_ne_nil (n + 1) n (by omega)

theorem chunkAccount_length (a : Str) (i : Nat) :
    (chunkAccount a i).length = a.length + 1 + (natChars i).length := by
  simp [chunkAccount]
  omega

theorem account_length_lt_chunk (a : Str) (i : Nat) : a.length < (chunkAccount a i).length := by
  rw [chunkAccount_length]
  omega

theorem chunkAccount_ne_account (a : Str) (i : Nat) : chunkAccount a i ≠ a := by
  intro h
  have := congrArg List.length h
  rw [chunkAccount_length] at this
  omega

theorem chunkAccount_inj {a : Str} {i j : Nat} (h : chunkAccount a i = chunkAccount a j) :
    i = j := by
  unfold chunkAccount at h
  have h2 := List.append_cancel_left h
  injection h2 with _ h3
  exact natChars_inj h3

theorem getPassword_deletePassword (kv : Vault) (s a s' b : Str) :
    getPassword (deletePassword kv s a).2 s' b =
      if s' = s ∧ b = a then none else getPassword kv s' b := by
  induction kv with
  | nil => simp [deletePassword, getPassword]
  | cons e rest ih =>
    by_cases hk : e.service = s ∧ e.account = a
    · have hdel : (deletePassword (e :: rest) s a).2 = (deletePassword rest s a).2 := by
        simp [deletePassword, hk]
      rw [hdel, ih]
      by_cases hq : s' = s ∧ b = a
      · simp [hq]
      · have hne : ¬(e.service = s' ∧ e.account = b) := by
          rintro ⟨h1, h2⟩
          exact hq ⟨by rw [← h1, hk.1], by rw [← h2, hk.2]⟩
        simp [hq, getPassword, hne]
    · have hdel : (deletePassword (e :: rest) s a).2 = e :: (deletePassword rest s a).2 := by
        simp [deletePassword, hk]
      rw [hdel]
      by_cases he : e.service = s' ∧ e.account = b
      · have hq : ¬(s' = s ∧ b = a) := by
          rintro ⟨h1, h2⟩
          exact hk ⟨by rw [he.1, h1], by rw [he.2, h2]⟩
        simp [getPassword, he, hq]
      · simp [getPassword, he, ih]

theorem deletePassword_fst (kv : Vault) (s a : Str) :
    (deletePassword kv s a).1 = (getPassword kv s a).isSome := by
  induction kv with
  | nil => simp [deletePassword, getPassword]
  | cons e rest ih =>
    by_cases hk : e.service = s ∧ e.account = a
    · simp [deletePassword, getPassword, hk]
    · simp [deletePassword, getPassword, hk, ih]

theorem deletePassword_of_none {kv : Vault} {s a : Str}
    (h : getPassword kv s a = none) : (deletePassword kv s a).2 = kv := by
  induction kv with
  | nil => simp [deletePassword]
  | cons e rest ih =>
    by_cases hk : e.service = s ∧ e.account = a
    · simp [getPassword, hk] at h
    · simp only [getPassword, hk, if_false] at h
      simp [deletePassword, hk, ih h]

theorem deletePassword_length_le (kv : Vault) (s a : Str) :
    (deletePassword kv s a).2.length ≤ kv.length := by
  induction kv with
  | nil => simp [deletePassword]
  | cons f fs ihf =>
    by_cases hf : f.service = s ∧ f.account = a
    · have hd : (deletePassword (f :: fs) s a).2 = (deletePassword fs s a).2 := by
        simp [deletePassword, hf]
      rw [hd]
      simp only [List.length_cons]
      omega
    · have hd : (deletePassword (f :: fs) s a).2 = f :: (deletePassword fs s a).2 := by
        simp [deletePassword, hf]
      rw [hd]
      simp only [List.length_cons]
      omega

theorem deletePassword_length_lt {kv : Vault} {s a : Str}
    (h : (getPassword kv s a).isSome = true) :
    (deletePassword kv s a).2.length < kv.length := by
  induction kv with
  | nil => simp [getPassword] at h
  | cons e rest ih =>
    by_cases hk : e.service = s ∧ e.account = a
    · have hdel : (deletePassword (e :: rest) s a).2 = (deletePassword rest s a).2 := by
        simp [deletePassword, hk]
      rw [hdel]
      have hle := deletePassword_length_le rest s a
      simp only [List.length_cons]
      omega
    · simp only [getPassword, hk, if_false] at h
      have hdel : (deletePassword (e :: rest) s a).2 = e :: (deletePassword rest s a).2 := by
        simp [deletePassword, hk]
      rw [hdel]
      simpa using Nat.succ_lt_succ (ih h)

theorem getPassword_setPassword (kv : Vault) (s a v : Str) (s' b : Str) :
    getPassword (setPassword kv s a v) s' b =
      if s' = s ∧ b = a then some v else getPassword kv s' b := by
  unfold setPassword
  by_cases hq : s' = s ∧ b = a
  · have : (Entry.mk s a v).service = s' ∧ (Entry.mk s a v).account = b := ⟨hq.1.symm, hq.2.symm⟩
    simp [getPassword, this, hq]
  · have hne : ¬((Entry.mk s a v).service = s' ∧ (Entry.mk s a v).account = b) := by
      rintro ⟨h1, h2⟩
      exact hq ⟨h1.symm, h2.symm⟩
    simp only [getPassword, hne, if_false, hq, if_false]
    rw [getPassword_deletePassword]
    simp [hq]

theorem maxLen_pos : 0 < WIN32_CRED_MAX_STRING_LENGTH := by
  unfold WIN32_CRED_MAX_STRING_LENGTH
  omega

theorem chunkifyF_length_le : ∀ fuel (w : Str), (chunkifyF fuel w).length ≤ w.length := by
  intro fuel
  induction fuel with
  | zero => intro w; simp [chunkifyF]
  | succ fuel ih =>
    intro w
    by_cases hw : w.length = 0
    · simp [chunkifyF, hw]
    · have hd := ih (w.drop WIN32_CRED_MAX_STRING_LENGTH)
      have hW := maxLen_pos
      simp only [chunkifyF, hw, if_false, List.length_cons]
      simp only [List.length_drop] at hd
      omega

theorem chunkifyF_join_take : ∀ fuel (w : Str), w.length ≤ fuel → ∀ m,
    (((chunkifyF fuel w).take m).flatten) = w.take (m * WIN32_CRED_MAX_STRING_LENGTH) := by
  intro fuel
  induction fuel with
  | zero =>
    intro w hw m
    have : w = [] := List.eq_nil_of_length_eq_zero (by omega)
    subst this
    simp [chunkifyF]
  | succ fuel ih =>
    intro w hw m
    by_cases hw0 : w.length = 0
    · have : w = [] := List.eq_nil_of_length_eq_zero hw0
      subst this
      simp [chunkifyF]
    · cases m with
      | zero => simp [chunkifyF, hw0]
      | succ m =>
        have hW := maxLen_pos
        have hdrop : (w.drop WIN32_CRED_MAX_STRING_LENGTH).length ≤ fuel := by
          simp only [List.length_drop]
          omega
        simp only [chunkifyF, hw0, if_false, List.take_succ_cons, List.flatten_cons]
        rw [ih _ hdrop m]
        have harith : (m + 1) * WIN32_CRED_MAX_STRING_LENGTH =
            WIN32_CRED_MAX_STRING_LENGTH + m * WIN32_CRED_MAX_STRING_LENGTH := by ring
        rw [harith, List.take_add]

theorem chunkifyF_length_mul : ∀ fuel (w : Str), w.length ≤ fuel →
    w.length ≤ (chunkifyF fuel w).length * WIN32_CRED_MAX_STRING_LENGTH := by
  intro fuel
  induction fuel with
  | zero =>
    intro w hw
    have hnil : w = [] := List.eq_nil_of_length_eq_zero (by omega)
    subst hnil
    simp [chunkifyF]
  | succ fuel ih =>
    intro w hw
    by_cases hw0 : w.length = 0
    · simp [chunkifyF, hw0]
    · have hW := maxLen_pos
      have hdrop : (w.drop WIN32_CRED_MAX_STRING_LENGTH).length ≤ fuel := by
        simp only [List.length_drop]; omega
      have := ih _ hdrop
      simp only [List.length_drop] at this
      simp only [chunkifyF, hw0, if_false, List.length_cons]
      have harith : ((chunkifyF fuel (w.drop WIN32_CRED_MAX_STRING_LENGTH)).length + 1) *
          WIN32_CRED_MAX_STRING_LENGTH =
          (chunkifyF fuel (w.drop WIN32_CRED_MAX_STRING_LENGTH)).length *
            WIN32_CRED_MAX_STRING_LENGTH + WIN32_CRED_MAX_STRING_LENGTH := by ring
      omega

theorem chunkifyF_join {fuel : Nat} {w : Str} (hw : w.length ≤ fuel) :
    (chunkifyF fuel w).flatten = w := by
  have h1 := chunkifyF_join_take fuel w hw (chunkifyF fuel w).length
  rw [List.take_length] at h1
  rw [h1]
  exact List.take_of_length_le (chunkifyF_length_mul fuel w hw)

theorem chunkifyF_ne_nil : ∀ fuel (w p : Str), p ∈ chunkifyF fuel w → p ≠ [] := by
  intro fuel
  induction fuel with
  | zero => intro w p hp; simp [chunkifyF] at hp
  | succ fuel ih =>
    intro w p hp
    by_cases hw0 : w.length = 0
    · simp [chunkifyF, hw0] at hp
    · simp only [chunkifyF, hw0, if_false, List.mem_cons] at hp
      rcases hp with hp | hp
      · subst hp
        intro hc
        have := congrArg List.length hc
        have hW := maxLen_pos
        simp only [List.length_take, List.length_nil] at this
        omega
      · exact ih _ _ hp

theorem writeChunksLoop_frame (s a : Str) : ∀ fuel (kv : Vault) (w : Str) (idx : Nat)
    (s' b : Str), (s' ≠ s ∨ ∀ j, idx ≤ j → b ≠ chunkAccount a j) →
    getPassword (writeChunksLoop s a fuel kv w idx) s' b = getPassword kv s' b := by
  intro fuel
  induction fuel with
  | zero => intro kv w idx s' b _; rfl
  | succ fuel ih =>
    intro kv w idx s' b hb
    by_cases hw0 : w.length = 0
    · simp [writeChunksLoop, hw0]
    · simp only [writeChunksLoop, hw0, if_false]
      have hb' : s' ≠ s ∨ ∀ j, idx + 1 ≤ j → b ≠ chunkAccount a j := by
        rcases hb with hb | hb
        · exact Or.inl hb
        · exact Or.inr fun j hj => hb j (by omega)
      rw [ih _ _ _ s' b hb', getPassword_setPassword]
      have hne : ¬(s' = s ∧ b = chunkAccount a idx) := by
        rintro ⟨h1, h2⟩
        rcases hb with hb | hb
        · exact hb h1
        · exact hb idx (le_refl idx) h2
      rw [if_neg hne]

theorem writeChunksLoop_get (s a : Str) : ∀ fuel (kv : Vault) (w : Str) (idx j : Nat),
    j < (chunkifyF fuel w).length →
    getPassword (writeChunksLoop s a fuel kv w idx) s (chunkAccount a (idx + j)) =
      (chunkifyF fuel w).get? j := by
  intro fuel
  induction fuel with
  | zero => intro kv w idx j hj; simp [chunkifyF] at hj
  | succ fuel ih =>
    intro kv w idx j hj
    by_cases hw0 : w.length = 0
    · simp [chunkifyF, hw0] at hj
    · simp only [writeChunksLoop, hw0, if_false]
      cases j with
      | zero =>
        simp only [Nat.add_zero]
        have hfr := writeChunksLoop_frame s a fuel
          (setPassword kv s (chunkAccount a idx) (w.take WIN32_CRED_MAX_STRING_LENGTH))
          (w.drop WIN32_CRED_MAX_STRING_LENGTH) (idx + 1) s (chunkAccount a idx)
          (Or.inr fun j hj hc => by have := chunkAccount_inj hc; omega)
        rw [hfr, getPassword_setPassword, if_pos ⟨rfl, rfl⟩]
        simp [chunkifyF, hw0]
      | succ j =>
        have hj' : j < (chunkifyF fuel (w.drop WIN32_CRED_MAX_STRING_LENGTH)).length := by
          simp only [chunkifyF, hw0, if_false, List.length_cons] at hj
          omega
        have harith : idx + (j + 1) = (idx + 1) + j := by omega
        rw [harith, ih _ _ _ _ hj']
        simp [chunkifyF, hw0]

theorem writeChunksLoop_length (s a : Str) : ∀ fuel (kv : Vault) (w : Str) (idx : Nat),
    (∀ j, idx ≤ j → getPassword kv s (chunkAccount a j) = none) →
    (writeChunksLoop s a fuel kv w idx).length = kv.length + (chunkifyF fuel w).length := by
  intro fuel
  induction fuel with
  | zero => intro kv w idx _; simp [writeChunksLoop, chunkifyF]
  | succ fuel ih =>
    intro kv w idx hfresh
    by_cases hw0 : w.length = 0
    · simp [writeChunksLoop, chunkifyF, hw0]
    · simp only [writeChunksLoop, chunkifyF, hw0, if_false, List.length_cons]
      rw [ih _ _ _ ?_]
      · have hdel : (deletePassword kv s (chunkAccount a idx)).2 = kv :=
          deletePassword_of_none (hfresh idx (le_refl idx))
        simp only [setPassword, List.length_cons, hdel]
        omega
      · intro j hj
        rw [getPassword_setPassword, if_neg ?_]
        · exact hfresh j (by omega)
        · rintro ⟨_, h2⟩
          have := chunkAccount_inj h2
          omega

theorem getChunksLoop_none_of_some {kv : Vault} {s a : Str} {i : Nat}
    (h : (getPassword kv s (chunkAccount a i)).isSome = true) (fuel : Nat) :
    getChunksLoop kv s a fuel i none = getChunksLoop kv s a fuel i (some []) := by
  cases fuel with
  | zero => rfl
  | succ fuel =>
    rcases Option.isSome_iff_exists.mp h with ⟨t, ht⟩
    simp [getChunksLoop, ht]

theorem getChunksLoop_reassemble {kv : Vault} {s a : Str} :
    ∀ (cs : List Str) (fuel i : Nat) (acc : Str), cs ≠ [] → cs.length ≤ fuel →
    (∀ j, j < cs.length → getPassword kv s (chunkAccount a (i + j)) = cs.get? j) →
    (∀ m, m < cs.length → endsWithNul (acc ++ (cs.take m).flatten) = false) →
    endsWithNul (acc ++ cs.flatten) = true →
    getChunksLoop kv s a fuel i (some acc) = some (some (acc ++ cs.flatten)) := by
  intro cs
  induction cs with
  | nil => intro fuel i acc hne; exact absurd rfl hne
  | cons c cs ih =>
    intro fuel i acc _ hfuel hget hpre hend
    cases fuel with
    | zero => simp at hfuel
    | succ fuel =>
      have hc : getPassword kv s (chunkAccount a i) = some c := by
        have := hget 0 (by simp)
        simpa using this
      simp only [getChunksLoop, hc]
      cases cs with
      | nil =>
        have hend' : endsWithNul (acc ++ c) = true := by
          simpa using hend
        simp [hend']
      | cons d ds =>
        have hpre1 : endsWithNul (acc ++ c) = false := by
          have := hpre 1 (by simp)
          simpa using this
        simp only [Option.getD_some, hpre1, Bool.false_eq_true, if_false]
        have hres := ih fuel (i + 1) (acc ++ c) (by simp) (by simp at hfuel ⊢; omega)
          (fun j hj => by
            have := hget (j + 1) (by simp at hj ⊢; omega)
            have harith : i + (j + 1) = i + 1 + j := by omega
            rw [harith] at this
            simpa using this)
          (fun m hm => by
            have := hpre (m + 1) (by simp at hm ⊢; omega)
            simpa [List.append_assoc] using this)
          (by simpa [List.append_assoc] using hend)
        rw [hres]
        simp [List.append_assoc]

theorem getChunksLoop_mono {kv : Vault} {s a : Str} :
    ∀ (fuel fuel' i : Nat) (val : Option Str) (r : Option Str),
    getChunksLoop kv s a fuel i val = some r → fuel ≤ fuel' →
    getChunksLoop kv s a fuel' i val = some r := by
  intro fuel
  induction fuel with
  | zero => intro fuel' i val r h; simp [getChunksLoop] at h
  | succ fuel ih =>
    intro fuel' i val r h hle
    cases fuel' with
    | zero => omega
    | succ fuel' =>
      simp only [getChunksLoop] at h ⊢
      rcases hv : getPassword kv s (chunkAccount a i) with _ | t
      · rw [hv] at h
        cases val with
        | none => exact h
        | some l =>
          simp only at h ⊢
          by_cases he : endsWithNul l = true
          · simpa [he] using h
          · rw [Bool.not_eq_true] at he
            simp only [he, Bool.false_eq_true, if_false] at h ⊢
            exact ih fuel' (i + 1) (some l) r h (by omega)
      · rw [hv] at h
        simp only at h ⊢
        by_cases he : endsWithNul (val.getD [] ++ t) = true
        · simpa [he] using h
        · rw [Bool.not_eq_true] at he
          simp only [he, Bool.false_eq_true, if_false] at h ⊢
          exact ih fuel' (i + 1) _ r h (by omega)

theorem getChunksLoop_isSome_iff {kv : Vault} {s a : Str} :
    ∀ (fuel i : Nat) (v : Str),
    (getChunksLoop kv s a fuel i (some v)).isSome = true ↔
      ∃ m, 1 ≤ m ∧ m ≤ fuel ∧ endsWithNul (v ++ accFrom kv s a i m) = true := by
  intro fuel
  induction fuel with
  | zero =>
    intro i v
    simp only [getChunksLoop, Option.isSome_none, Bool.false_eq_true, false_iff, not_exists]
    intro m
    omega
  | succ fuel ih =>
    intro i v
    rcases hv : getPassword kv s (chunkAccount a i) with _ | t
    · simp only [getChunksLoop, hv]
      by_cases he : endsWithNul v = true
      · simp only [he, if_true, Option.isSome_some, true_iff]
        refine ⟨1, le_refl 1, by omega, ?_⟩
        simp [accFrom, hv, he]
      · rw [Bool.not_eq_true] at he
        simp only [he, Bool.false_eq_true, if_false]
        rw [ih (i + 1) v]
        constructor
        · rintro ⟨m, h1, h2, h3⟩
          refine ⟨m + 1, by omega, by omega, ?_⟩
          simpa [accFrom, hv] using h3
        · rintro ⟨m, h1, h2, h3⟩
          cases m with
          | zero => omega
          | succ m =>
            cases m with
            | zero =>
              simp only [accFrom, hv, Option.getD_none, List.nil_append, List.append_nil] at h3
              rw [h3] at he
              cases he
            | succ m =>
              refine ⟨m + 1, by omega, by omega, ?_⟩
              simpa [accFrom, hv] using h3
    · simp only [getChunksLoop, hv]
      by_cases he : endsWithNul (v ++ t) = true
      · simp only [Option.getD_some, he, if_true, Option.isSome_some, true_iff]
        refine ⟨1, le_refl 1, by omega, ?_⟩
        simpa [accFrom, hv] using he
      · rw [Bool.not_eq_true] at he
        simp only [Option.getD_some, he, Bool.false_eq_true, if_false]
        rw [ih (i + 1) (v ++ t)]
        constructor
        · rintro ⟨m, h1, h2, h3⟩
          refine ⟨m + 1, by omega, by omega, ?_⟩
          simpa [accFrom, hv, List.append_assoc] using h3
        · rintro ⟨m, h1, h2, h3⟩
          cases m with
          | zero => omega
          | succ m =>
            cases m with
            | zero =>
              simp only [accFrom, hv, Option.getD_some, List.append_nil] at h3
              rw [h3] at he
              cases he
            | succ m =>
              refine ⟨m + 1, by omega, by omega, ?_⟩
              simpa [accFrom, hv, List.append_assoc] using h3

theorem deleteChunksLoop_frame (a : Str) : ∀ fuel (kv : Vault) (idx : Nat) (s' b : Str),
    (s' ≠ SVC_NAME ∨ ∀ j, idx ≤ j → b ≠ chunkAccount a j) →
    getPassword (deleteChunksLoop a fuel kv idx).2 s' b = getPassword kv s' b := by
  intro fuel
  induction fuel with
  | zero => intro kv idx s' b _; rfl
  | succ fuel ih =>
    intro kv idx s' b hb
    simp only [deleteChunksLoop]
    by_cases hdel : (deletePassword kv SVC_NAME (chunkAccount a idx)).1 = true
    · simp only [hdel, if_true]
      have hb' : s' ≠ SVC_NAME ∨ ∀ j, idx + 1 ≤ j → b ≠ chunkAccount a j := by
        rcases hb with hb | hb
        · exact Or.inl hb
        · exact Or.inr fun j hj => hb j (by omega)
      rw [ih _ _ s' b hb', getPassword_deletePassword]
      have hne : ¬(s' = SVC_NAME ∧ b = chunkAccount a idx) := by
        rintro ⟨h1, h2⟩
        rcases hb with hb | hb
        · exact hb h1
        · exact hb idx (le_refl idx) h2
      rw [if_neg hne]
    · rw [Bool.not_eq_true] at hdel
      simp [hdel]

theorem deleteChunksLoop_clears (a : Str) : ∀ fuel (kv : Vault) (idx n : Nat),
    (∀ j, idx ≤ j → ((getPassword kv SVC_NAME (chunkAccount a j)).isSome = true ↔ j ≤ n)) →
    n + 2 ≤ fuel + idx →
    ∀ j, idx ≤ j →
      getPassword (deleteChunksLoop a fuel kv idx).2 SVC_NAME (chunkAccount a j) = none := by
  intro fuel
  induction fuel with
  | zero =>
    intro kv idx n hiff hfuel j hj
    have h1 := hiff j hj
    have h2 : ¬(j ≤ n) := by omega
    simp only [deleteChunksLoop]
    rcases hlook : getPassword kv SVC_NAME (chunkAccount a j) with _ | t
    · rfl
    · rw [hlook] at h1
      simp only [Option.isSome_some, true_iff] at h1
      omega
  | succ fuel ih =>
    intro kv idx n hiff hfuel j hj
    simp only [deleteChunksLoop]
    by_cases hdel : (deletePassword kv SVC_NAME (chunkAccount a idx)).1 = true
    · simp only [hdel, if_true]
      have hiff' : ∀ j', idx + 1 ≤ j' →
          ((getPassword (deletePassword kv SVC_NAME (chunkAccount a idx)).2 SVC_NAME
            (chunkAccount a j')).isSome = true ↔ j' ≤ n) := by
        intro j' hj'
        rw [getPassword_deletePassword]
        have hne : ¬(SVC_NAME = SVC_NAME ∧ chunkAccount a j' = chunkAccount a idx) := by
          rintro ⟨_, h2⟩
          have := chunkAccount_inj h2
          omega
        rw [if_neg hne]
        exact hiff j' (by omega)
      by_cases hjidx : j = idx
      · subst hjidx
        rw [deleteChunksLoop_frame a fuel _ _ SVC_NAME (chunkAccount a j)
          (Or.inr fun j' hj' hc => by have := chunkAccount_inj hc; omega)]
        rw [getPassword_deletePassword, if_pos ⟨rfl, rfl⟩]
      · exact ih _ _ n hiff' (by omega) j (by omega)
    · rw [Bool.not_eq_true] at hdel
      simp only [hdel, Bool.false_eq_true, if_false]
      have hfst := deletePassword_fst kv SVC_NAME (chunkAccount a idx)
      rw [hdel] at hfst
      have hidx := hiff idx (le_refl idx)
      rw [← hfst] at hidx
      simp only [Bool.false_eq_true, false_iff] at hidx
      have h1 := hiff j hj
      rcases hlook : getPassword kv SVC_NAME (chunkAccount a j) with _ | t
      · rfl
      · rw [hlook] at h1
        simp only [Option.isSome_some, true_iff] at h1
        omega

theorem deleteFromServices_lookup (a : Str) (keep : Bool) :
    ∀ (services : List Str) (kv : Vault) (w : Bool) (s' b : Str),
    getPassword (deleteFromServices a keep services kv w).2 s' b =
      if s' ∈ services ∧ ¬(keep = true ∧ s' = SVC_NAME) ∧ b = a then none
      else getPassword kv s' b := by
  intro services
  induction services with
  | nil => intro kv w s' b; simp [deleteFromServices]
  | cons s rest ih =>
    intro kv w s' b
    by_cases hskip : keep = true ∧ s = SVC_NAME
    · have hstep : deleteFromServices a keep (s :: rest) kv w =
          deleteFromServices a keep rest kv w := by
        simp only [deleteFromServices]
        rw [if_pos hskip]
      rw [hstep, ih]
      have hiffc : (s' ∈ s :: rest ∧ ¬(keep = true ∧ s' = SVC_NAME) ∧ b = a) ↔
          (s' ∈ rest ∧ ¬(keep = true ∧ s' = SVC_NAME) ∧ b = a) := by
        constructor
        · rintro ⟨hm, hC, hb⟩
          rcases List.mem_cons.mp hm with he | hm'
          · exact absurd ⟨hskip.1, he.trans hskip.2⟩ hC
          · exact ⟨hm', hC, hb⟩
        · rintro ⟨hm, hC, hb⟩
          exact ⟨List.mem_cons_of_mem _ hm, hC, hb⟩
      exact if_congr hiffc.symm rfl rfl
    · have hstep : deleteFromServices a keep (s :: rest) kv w =
          deleteFromServices a keep rest (deletePassword kv s a).2
            (w || (deletePassword kv s a).1) := by
        simp only [deleteFromServices]
        rw [if_neg hskip]
      rw [hstep, ih, getPassword_deletePassword]
      by_cases hsb : s' = s ∧ b = a
      · have hC : ¬(keep = true ∧ s' = SVC_NAME) := by
          rintro ⟨hk, hsvc⟩
          exact hskip ⟨hk, by rw [← hsb.1, hsvc]⟩
        have hcond : s' ∈ s :: rest ∧ ¬(keep = true ∧ s' = SVC_NAME) ∧ b = a :=
          ⟨by simp [hsb.1], hC, hsb.2⟩
        rw [if_pos hcond]
        by_cases hrest : s' ∈ rest ∧ ¬(keep = true ∧ s' = SVC_NAME) ∧ b = a
        · rw [if_pos hrest]
        · rw [if_neg hrest, if_pos hsb]
      · rw [if_neg hsb]
        have hiffc : (s' ∈ s :: rest ∧ ¬(keep = true ∧ s' = SVC_NAME) ∧ b = a) ↔
            (s' ∈ rest ∧ ¬(keep = true ∧ s' = SVC_NAME) ∧ b = a) := by
          constructor
          · rintro ⟨hm, hC, hb⟩
            rcases List.mem_cons.mp hm with he | hm'
            · exact absurd ⟨he, hb⟩ hsb
            · exact ⟨hm', hC, hb⟩
          · rintro ⟨hm, hC, hb⟩
            exact ⟨List.mem_cons_of_mem _ hm, hC, hb⟩
        exact if_congr hiffc.symm rfl rfl

theorem endsWithNul_nil : endsWithNul [] = false := rfl

theorem endsWithNul_concat (v : Str) : endsWithNul (v ++ [nulChar]) = true := by
  simp [endsWithNul, List.getLast?_concat]

theorem stripTrailingNul_concat (v : Str) : stripTrailingNul (v ++ [nulChar]) = v := by
  simp [stripTrailingNul, endsWithNul_concat, List.dropLast_concat]

theorem endsWithNul_take_false {v : Str} (hnul : nulChar ∉ v) {k : Nat}
    (hk : k ≤ v.length) : endsWithNul ((v ++ [nulChar]).take k) = false := by
  have htake : (v ++ [nulChar]).take k = v.take k := List.take_append_of_le_length hk
  rw [htake]
  rcases hlast : (v.take k).getLast? with _ | c
  · simp [endsWithNul, hlast]
  · have hc : c ∈ v := List.mem_of_mem_take (List.mem_of_mem_getLast? hlast)
    have hcn : c ≠ nulChar := fun h => hnul (h ▸ hc)
    simp [endsWithNul, hlast, hcn]

theorem chunkifyF_ne_nil_self {fuel : Nat} {w : Str} (hw : w ≠ []) (hfuel : w.length ≤ fuel) :
    chunkifyF fuel w ≠ [] := by
  intro hc
  have := chunkifyF_length_mul fuel w hfuel
  rw [hc] at this
  simp at this
  exact hw this

theorem chunkifyF_nil : ∀ fuel, chunkifyF fuel ([] : Str) = [] := by
  intro fuel
  cases fuel with
  | zero => rfl
  | succ fuel => simp [chunkifyF]

theorem chunkifyF_length_min : ∀ fuel (w : Str), w ≠ [] → w.length ≤ fuel →
    ((chunkifyF fuel w).length - 1) * WIN32_CRED_MAX_STRING_LENGTH < w.length := by
  intro fuel
  induction fuel with
  | zero =>
    intro w hw hf
    exact absurd (List.eq_nil_of_length_eq_zero (by omega)) hw
  | succ fuel ih =>
    intro w hw hf
    have hw0 : ¬(w.length = 0) := fun h => hw (List.eq_nil_of_length_eq_zero h)
    simp only [chunkifyF, hw0, if_false, List.length_cons]
    by_cases hd : w.drop WIN32_CRED_MAX_STRING_LENGTH = []
    · rw [hd, chunkifyF_nil]
      simp only [List.length_nil]
      have hW := maxLen_pos
      omega
    · have hdrop : (w.drop WIN32_CRED_MAX_STRING_LENGTH).length ≤ fuel := by
        have hW := maxLen_pos
        simp only [List.length_drop]
        omega
      have := ih _ hd hdrop
      simp only [List.length_drop] at this
      have hlen : WIN32_CRED_MAX_STRING_LENGTH < w.length := by
        by_contra hc
        exact hd (List.drop_eq_nil_of_le (by omega))
      have hne : chunkifyF fuel (w.drop WIN32_CRED_MAX_STRING_LENGTH) ≠ [] :=
        chunkifyF_ne_nil_self hd hdrop
      have hlenpos : 1 ≤ (chunkifyF fuel (w.drop WIN32_CRED_MAX_STRING_LENGTH)).length := by
        rcases hll : (chunkifyF fuel (w.drop WIN32_CRED_MAX_STRING_LENGTH)).length with _ | n
        · exact absurd (List.eq_nil_of_length_eq_zero hll) hne
        · omega
      rcases Nat.exists_eq_add_of_le hlenpos with ⟨n, hn⟩
      rw [hn]
      have harith : (1 + n + 1 - 1) * WIN32_CRED_MAX_STRING_LENGTH =
          (1 + n - 1) * WIN32_CRED_MAX_STRING_LENGTH + WIN32_CRED_MAX_STRING_LENGTH := by
        have : 1 + n + 1 - 1 = (1 + n - 1) + 1 := by omega
        rw [this]
        ring
      rw [hn] at this
      omega

theorem writeChunksLoop_get_beyond (s a : Str) :
    ∀ fuel (kv : Vault) (w : Str) (idx j : Nat), (chunkifyF fuel w).length ≤ j →
    getPassword (writeChunksLoop s a fuel kv w idx) s (chunkAccount a (idx + j)) =
      getPassword kv s (chunkAccount a (idx + j)) := by
  intro fuel
  induction fuel with
  | zero => intro kv w idx j hj; rfl
  | succ fuel ih =>
    intro kv w idx j hj
    by_cases hw0 : w.length = 0
    · simp [writeChunksLoop, hw0]
    · simp only [chunkifyF, hw0, if_false, List.length_cons] at hj
      simp only [writeChunksLoop, hw0, if_false]
      have hj1 : 1 ≤ j := by omega
      have harith : idx + j = (idx + 1) + (j - 1) := by omega
      rw [harith]
      rw [ih _ _ _ _ (by omega)]
      rw [getPassword_setPassword, if_neg ?_]
      rintro ⟨_, h2⟩
      have := chunkAccount_inj h2
      omega

theorem checkForKeytar_ok {mgr : DefaultCredentialManager} (hml : mgr.keytarLoaded = true) :
    checkForKeytar mgr = .ok () := by
  simp [checkForKeytar, hml]

theorem saveCredentials_eq {mgr : DefaultCredentialManager} (hml : mgr.keytarLoaded = true)
    (win32 : Bool) (kv : Vault) (account v : Str) :
    saveCredentials win32 mgr kv account v =
      .ok (setCredentialsHelper win32 (deleteCredentialsHelper win32 mgr kv account true).2
        mgr.service account v) := by
  simp [saveCredentials, checkForKeytar_ok hml]

theorem deleteCredentialsHelper_frame (win32 : Bool) (mgr : DefaultCredentialManager)
    (kv : Vault) (a : Str) (keep : Bool) (s' b : Str) (hb1 : b ≠ a)
    (hb2 : ∀ j, 1 ≤ j → b ≠ chunkAccount a j) :
    getPassword (deleteCredentialsHelper win32 mgr kv a keep).2 s' b =
      getPassword kv s' b := by
  cases win32 with
  | false =>
    simp only [deleteCredentialsHelper, Bool.false_eq_true, if_false]
    rw [deleteFromServices_lookup]
    rw [if_neg ?_]
    rintro ⟨_, _, hbb⟩
    exact hb1 hbb
  | true =>
    simp only [deleteCredentialsHelper, if_true]
    rw [deleteChunksLoop_frame a _ _ _ s' b (Or.inr hb2)]
    rw [deleteFromServices_lookup]
    rw [if_neg ?_]
    rintro ⟨_, _, hbb⟩
    exact hb1 hbb

theorem deleteCredentialsHelper_other (win32 : Bool) (mgr : DefaultCredentialManager)
    (kv : Vault) (a : Str) (s' b : Str) (hs' : s' ≠ SVC_NAME) :
    getPassword (deleteCredentialsHelper win32 mgr kv a true).2 s' b =
      if s' ∈ allServices mgr.service ∧ b = a then none else getPassword kv s' b := by
  have hdfs : getPassword (deleteFromServices a true (allServices mgr.service) kv false).2 s' b =
      if s' ∈ allServices mgr.service ∧ b = a then none else getPassword kv s' b := by
    rw [deleteFromServices_lookup]
    have hiffc : (s' ∈ allServices mgr.service ∧ ¬(true = true ∧ s' = SVC_NAME) ∧ b = a) ↔
        (s' ∈ allServices mgr.service ∧ b = a) := by
      constructor
      · rintro ⟨hm, _, hb⟩; exact ⟨hm, hb⟩
      · rintro ⟨hm, hb⟩; exact ⟨hm, fun hc => hs' hc.2, hb⟩
    exact if_congr hiffc rfl rfl
  cases win32 with
  | false => simpa [deleteCredentialsHelper] using hdfs
  | true =>
    simp only [deleteCredentialsHelper, if_true]
    rw [deleteChunksLoop_frame a _ _ _ s' b (Or.inl hs')]
    exact hdfs

theorem setCredentialsHelper_single (win32 : Bool) (kv2 : Vault) (svc a v : Str) :
    getPassword (setCredentialsHelper win32 kv2 svc a v) svc a =
      if win32 = true ∧ WIN32_CRED_MAX_STRING_LENGTH < v.length then none else some v := by
  by_cases hc : win32 = true ∧ WIN32_CRED_MAX_STRING_LENGTH < v.length
  · rw [if_pos hc]
    simp only [setCredentialsHelper, if_pos hc]
    rw [writeChunksLoop_frame svc a _ _ _ _ svc a
      (Or.inr fun j hj hcc => (chunkAccount_ne_account a j) hcc.symm)]
    rw [getPassword_deletePassword, if_pos ⟨rfl, rfl⟩]
  · rw [if_neg hc]
    simp only [setCredentialsHelper, if_neg hc]
    rw [getPassword_setPassword, if_pos ⟨rfl, rfl⟩]

theorem setCredentialsHelper_other (win32 : Bool) (kv2 : Vault) (svc a v : Str) (s' b : Str)
    (h : ¬(s' = svc ∧ b = a)) (hb2 : s' ≠ svc ∨ ∀ j, 1 ≤ j → b ≠ chunkAccount a j) :
    getPassword (setCredentialsHelper win32 kv2 svc a v) s' b = getPassword kv2 s' b := by
  by_cases hc : win32 = true ∧ WIN32_CRED_MAX_STRING_LENGTH < v.length
  · simp only [setCredentialsHelper, if_pos hc]
    rw [writeChunksLoop_frame svc a _ _ _ _ s' b hb2]
    rw [getPassword_deletePassword, if_neg h]
  · simp only [setCredentialsHelper, if_neg hc]
    rw [getPassword_setPassword, if_neg h]

theorem setCredentialsHelper_chunks (kv2 : Vault) (svc a v : Str)
    (hv : WIN32_CRED_MAX_STRING_LENGTH < v.length) (j : Nat)
    (hj : j < (chunkifyF (v.length + 2) (v ++ [nulChar])).length) :
    getPassword (setCredentialsHelper true kv2 svc a v) svc (chunkAccount a (1 + j)) =
      (chunkifyF (v.length + 2) (v ++ [nulChar])).get? j := by
  unfold setCredentialsHelper
  rw [if_pos (show (true = true ∧ WIN32_CRED_MAX_STRING_LENGTH < v.length) from ⟨rfl, hv⟩)]
  exact writeChunksLoop_get svc a (v.length + 2) _ _ 1 j hj

theorem setCredentialsHelper_chunks_beyond (kv2 : Vault) (svc a v : Str)
    (hv : WIN32_CRED_MAX_STRING_LENGTH < v.length) (j : Nat)
    (hj : (chunkifyF (v.length + 2) (v ++ [nulChar])).length ≤ j) :
    getPassword (setCredentialsHelper true kv2 svc a v) svc (chunkAccount a (1 + j)) =
      getPassword kv2 svc (chunkAccount a (1 + j)) := by
  unfold setCredentialsHelper
  rw [if_pos (show (true = true ∧ WIN32_CRED_MAX_STRING_LENGTH < v.length) from ⟨rfl, hv⟩)]
  rw [writeChunksLoop_get_beyond svc a (v.length + 2) _ _ 1 j hj]
  rw [getPassword_deletePassword, if_neg ?_]
  rintro ⟨_, h2⟩
  exact (chunkAccount_ne_account a (1 + j)) h2

theorem getCredentialsHelper_after_chunked_save (kv2 : Vault) (svc a v : Str) (fuel : Nat)
    (hv : WIN32_CRED_MAX_STRING_LENGTH < v.length) (hnul : nulChar ∉ v)
    (hfuel : v.length + 1 ≤ fuel) :
    getCredentialsHelper true (setCredentialsHelper true kv2 svc a v) svc a fuel =
      some (some v) := by
  have hW := maxLen_pos
  have hwlen : (v ++ [nulChar]).length ≤ v.length + 2 := by simp
  have hwne : (v ++ [nulChar] : Str) ≠ [] := by simp
  have hcsne : chunkifyF (v.length + 2) (v ++ [nulChar]) ≠ [] :=
    chunkifyF_ne_nil_self hwne hwlen
  have hcslen : (chunkifyF (v.length + 2) (v ++ [nulChar])).length ≤ v.length + 1 := by
    have := chunkifyF_length_le (v.length + 2) (v ++ [nulChar])
    simpa using this
  have hsingle : getPassword (setCredentialsHelper true kv2 svc a v) svc a = none := by
    rw [setCredentialsHelper_single, if_pos ⟨rfl, hv⟩]
  have hchunk1 : (getPassword (setCredentialsHelper true kv2 svc a v) svc
      (chunkAccount a 1)).isSome = true := by
    have h0 : (0 : Nat) < (chunkifyF (v.length + 2) (v ++ [nulChar])).length := by
      rcases hl : (chunkifyF (v.length + 2) (v ++ [nulChar])).length with _ | n
      · exact absurd (List.eq_nil_of_length_eq_zero hl) hcsne
      · omega
    have := setCredentialsHelper_chunks kv2 svc a v hv 0 h0
    rw [Nat.add_zero] at this
    rw [this]
    rcases hcs : chunkifyF (v.length + 2) (v ++ [nulChar]) with _ | ⟨c, cs⟩
    · exact absurd hcs hcsne
    · simp
  have hloop : getChunksLoop (setCredentialsHelper true kv2 svc a v) svc a
      (chunkifyF (v.length + 2) (v ++ [nulChar])).length 1 (some []) =
      some (some ([] ++ (chunkifyF (v.length + 2) (v ++ [nulChar])).flatten)) := by
    apply getChunksLoop_reassemble _ _ _ _ hcsne (le_refl _)
    · intro j hj
      have := setCredentialsHelper_chunks kv2 svc a v hv j hj
      exact this
    · intro m hm
      rw [List.nil_append]
      rw [chunkifyF_join_take _ _ hwlen m]
      have hmin := chunkifyF_length_min (v.length + 2) (v ++ [nulChar]) hwne hwlen
      simp only [List.length_append, List.length_cons, List.length_nil] at hmin
      have hmb : m * WIN32_CRED_MAX_STRING_LENGTH ≤ v.length := by
        have hm1 : m ≤ (chunkifyF (v.length + 2) (v ++ [nulChar])).length - 1 := by omega
        have := Nat.mul_le_mul_right WIN32_CRED_MAX_STRING_LENGTH hm1
        omega
      exact endsWithNul_take_false hnul hmb
    · rw [List.nil_append, chunkifyF_join hwlen]
      exact endsWithNul_concat v
  have hloopfull : getChunksLoop (setCredentialsHelper true kv2 svc a v) svc a fuel 1 none =
      some (some (v ++ [nulChar])) := by
    rw [getChunksLoop_none_of_some hchunk1 fuel]
    have := getChunksLoop_mono _ fuel 1 (some [])
      (some ([] ++ (chunkifyF (v.length + 2) (v ++ [nulChar])).flatten)) hloop (by omega)
    rw [this]
    rw [List.nil_append, chunkifyF_join hwlen]
  simp only [getCredentialsHelper, hsingle, if_true, hloopfull]
  rw [show Option.map stripTrailingNul (some (v ++ [nulChar])) =
    some (stripTrailingNul (v ++ [nulChar])) from rfl]
  rw [stripTrailingNul_concat]

theorem loadHelper_of_hit {win32 : Bool} {kv : Vault} {svc a : Str} {fuel : Nat} {v : Str}
    (h : getCredentialsHelper win32 kv svc a fuel = some (some v)) :
    loadHelper win32 kv svc a fuel = some (some v) := by
  simp [loadHelper, h]

theorem loadCredentials_first_hit {win32 : Bool} {mgr : DefaultCredentialManager}
    {kv : Vault} {a : Str} {fuel : Nat} {v : Str} (optional : Bool)
    (hml : mgr.keytarLoaded = true)
    (hhit : loadHelper win32 kv mgr.service a fuel = some (some v)) :
    loadCredentials win32 mgr kv a optional fuel = some (.ok (some v)) := by
  simp only [loadCredentials, checkForKeytar_ok hml]
  have hloop : loadLoop win32 kv a fuel (allServices mgr.service) = some (some v) := by
    simp only [allServices, List.cons_append, loadLoop, hhit]
  rw [hloop]
  simp

/-- C1 (amended): for every value longer than the platform limit that does
not contain the null terminator character, saving it with `saveCredentials`
(which splits it into numbered chunk sub-entries with a terminator appended
to the final chunk) and then loading the same account with
`loadCredentials` returns exactly the original value, terminator stripped. -/
theorem chunked_roundtrip_nul_free (mgr : DefaultCredentialManager) (kv kvF : Vault)
    (account v : Str) (optional : Bool) (fuel : Nat)
    (hml : mgr.keytarLoaded = true) (hsvc : mgr.service = SVC_NAME)
    (hlen : WIN32_CRED_MAX_STRING_LENGTH < v.length)
    (hnul : nulChar ∉ v) (hfuel : v.length + 1 ≤ fuel)
    (hsave : saveCredentials true mgr kv account v = .ok kvF) :
    loadCredentials true mgr kvF account optional fuel = some (.ok (some v)) := by
  rw [saveCredentials_eq hml true kv account v] at hsave
  injection hsave with hkvF
  subst hkvF
  apply loadCredentials_first_hit optional hml
  rw [hsvc]
  exact loadHelper_of_hit (getCredentialsHelper_after_chunked_save _ _ _ _ fuel hlen hnul hfuel)

/-- Witness for C1: a concrete 2561-character null-free value round-trips
through save and load on an initially empty vault. -/
theorem chunked_roundtrip_nul_free_witness :
    loadCredentials true mgrW kvBigW acctW false 2562 = some (.ok (some vBigW)) := by
  apply chunked_roundtrip_nul_free mgrW [] kvBigW acctW vBigW false 2562 rfl rfl
  · unfold vBigW WIN32_CRED_MAX_STRING_LENGTH
    rw [List.length_replicate]
    omega
  · unfold vBigW
    intro h
    rw [List.mem_replicate] at h
    exact absurd h.2 (by decide)
  · unfold vBigW
    rw [List.length_replicate]
  · rfl

theorem chunkifyF_succ (fuel : Nat) (w : Str) (hw : ¬(w.length = 0)) :
    chunkifyF (fuel + 1) w = w.take WIN32_CRED_MAX_STRING_LENGTH ::
      chunkifyF fuel (w.drop WIN32_CRED_MAX_STRING_LENGTH) := by
  simp [chunkifyF, hw]

/-- Counterexample to C1 as stated: the 2561-character value `vNulBoundary`,
whose 2560th character is the null terminator, exceeds the platform limit,
yet saving it and loading it back returns a different (truncated) value,
because the reading loop takes the embedded null character at the chunk
boundary for the terminator. -/
theorem chunked_roundtrip_counterexample :
    WIN32_CRED_MAX_STRING_LENGTH < vNulBoundary.length ∧
    saveCredentials true mgrW [] acctW vNulBoundary = .ok kvNulBoundary ∧
    loadCredentials true mgrW kvNulBoundary acctW false 4 ≠
      some (.ok (some vNulBoundary)) := by
  have hW := maxLen_pos
  have hvlen : vNulBoundary.length = 2561 := by
    unfold vNulBoundary
    rw [List.length_append, List.length_replicate]
    rfl
  have hlen : WIN32_CRED_MAX_STRING_LENGTH < vNulBoundary.length := by
    unfold WIN32_CRED_MAX_STRING_LENGTH
    omega
  refine ⟨hlen, rfl, ?_⟩
  have hkv : kvNulBoundary = setCredentialsHelper true
      (deleteCredentialsHelper true mgrW [] acctW true).2 SVC_NAME acctW vNulBoundary := by
    have hse := @saveCredentials_eq mgrW rfl true [] acctW vNulBoundary
    unfold kvNulBoundary
    rw [hse]
    rfl
  have hw : vNulBoundary ++ [nulChar] =
      List.replicate 2559 'a' ++ ([nulChar, 'b'] ++ [nulChar]) := by
    unfold vNulBoundary
    exact List.append_assoc _ _ _
  have htake : (vNulBoundary ++ [nulChar]).take WIN32_CRED_MAX_STRING_LENGTH =
      List.replicate 2559 'a' ++ [nulChar] := by
    rw [hw, List.take_append_eq_append_take, List.take_of_length_le ?hle, List.length_replicate]
    case hle =>
      rw [List.length_replicate]
      unfold WIN32_CRED_MAX_STRING_LENGTH
      omega
    have h1 : WIN32_CRED_MAX_STRING_LENGTH - 2559 = 1 := by
      unfold WIN32_CRED_MAX_STRING_LENGTH
      omega
    rw [h1]
    rfl
  have hne0 : ¬((vNulBoundary ++ [nulChar]).length = 0) := by
    rw [List.length_append, hvlen]
    decide
  have hcstep := chunkifyF_succ (vNulBoundary.length + 1) (vNulBoundary ++ [nulChar]) hne0
  have hcs0 : (chunkifyF (vNulBoundary.length + 2) (vNulBoundary ++ [nulChar])).get? 0 =
      some ((vNulBoundary ++ [nulChar]).take WIN32_CRED_MAX_STRING_LENGTH) := by
    rw [hcstep]
    rfl
  have hcspos : 0 < (chunkifyF (vNulBoundary.length + 2) (vNulBoundary ++ [nulChar])).length := by
    rw [hcstep, List.length_cons]
    omega
  have hchunk1 : getPassword kvNulBoundary SVC_NAME (chunkAccount acctW 1) =
      some (List.replicate 2559 'a' ++ [nulChar]) := by
    rw [hkv]
    have hg := setCredentialsHelper_chunks (deleteCredentialsHelper true mgrW [] acctW true).2
      SVC_NAME acctW vNulBoundary hlen 0 hcspos
    rw [Nat.add_zero] at hg
    rw [hg, hcs0, htake]
  have hsingle : getPassword kvNulBoundary SVC_NAME acctW = none := by
    rw [hkv, setCredentialsHelper_single, if_pos ⟨rfl, hlen⟩]
  have hloop : getChunksLoop kvNulBoundary SVC_NAME acctW 4 1 none =
      some (some (List.replicate 2559 'a' ++ [nulChar])) := by
    rw [getChunksLoop_none_of_some (by rw [hchunk1]; rfl) 4]
    have hre := @getChunksLoop_reassemble kvNulBoundary SVC_NAME acctW
      [List.replicate 2559 'a' ++ [nulChar]] 4 1 [] (List.cons_ne_nil _ _)
      (by rw [List.length_cons, List.length_nil]; omega)
      (fun j hj => by
        have hj0 : j = 0 := by
          rw [List.length_cons, List.length_nil] at hj
          omega
        subst hj0
        rw [Nat.add_zero, hchunk1]
        rfl)
      (fun m hm => by
        have hm0 : m = 0 := by
          rw [List.length_cons, List.length_nil] at hm
          omega
        subst hm0
        rw [List.take_zero, List.flatten_nil, List.append_nil]
        exact endsWithNul_nil)
      (by
        rw [List.flatten_cons, List.flatten_nil, List.append_nil, List.nil_append]
        exact endsWithNul_concat _)
    rw [hre, List.flatten_cons, List.flatten_nil, List.append_nil, List.nil_append]
  have hload : loadCredentials true mgrW kvNulBoundary acctW false 4 =
      some (.ok (some (List.replicate 2559 'a'))) := by
    apply loadCredentials_first_hit false rfl
    apply loadHelper_of_hit
    show getCredentialsHelper true kvNulBoundary SVC_NAME acctW 4 = _
    simp only [getCredentialsHelper, hsingle, if_true, hloop]
    rw [show Option.map stripTrailingNul (some (List.replicate 2559 'a' ++ [nulChar])) =
      some (stripTrailingNul (List.replicate 2559 'a' ++ [nulChar])) from rfl]
    rw [stripTrailingNul_concat]
  rw [hload]
  intro hc
  have h1 : (List.replicate 2559 'a' : Str) = vNulBoundary := by
    have h2 := Option.some.inj hc
    have h3 := Except.ok.inj h2
    exact Option.some.inj h3
  have hlc := congrArg List.length h1
  rw [List.length_replicate, hvlen] at hlc
  omega

/-- C3: `saveCredentials` writes only under the current service identity
(`SVC_NAME`, per the constructor invariant) and deletes the pre-existing
entry for the same account under every other known service first, so no
stale duplicate of the account survives under the fallback services; when
the value needs no chunking the new value sits under the current service. -/
theorem save_current_service_only (win32 : Bool) (mgr : DefaultCredentialManager)
    (kv kvF : Vault) (account v : Str)
    (hml : mgr.keytarLoaded = true) (hsvc : mgr.service = SVC_NAME)
    (hsave : saveCredentials win32 mgr kv account v = .ok kvF) :
    (∀ s' b, s' ≠ SVC_NAME →
      getPassword kvF s' b =
        if s' ∈ allServices SVC_NAME ∧ b = account then none else getPassword kv s' b) ∧
    (¬(win32 = true ∧ WIN32_CRED_MAX_STRING_LENGTH < v.length) →
      getPassword kvF SVC_NAME account = some v) := by
  rw [saveCredentials_eq hml win32 kv account v] at hsave
  injection hsave with hkvF
  subst hkvF
  constructor
  · intro s' b hs'
    rw [setCredentialsHelper_other win32 _ _ _ _ s' b ?hne ?hor]
    case hne =>
      rintro ⟨h1, _⟩
      rw [hsvc] at h1
      exact hs' h1
    case hor =>
      left
      rw [hsvc]
      exact hs'
    rw [deleteCredentialsHelper_other win32 mgr kv account s' b hs', hsvc]
  · intro hnc
    rw [hsvc]
    rw [setCredentialsHelper_single win32
      (deleteCredentialsHelper win32 mgr kv account true).2 SVC_NAME account v]
    rw [if_neg hnc]

/-- Witness for C3: saving a short value over a vault that held the account
under the historical `@zowe/cli` service removes the stale entry and stores
the new value under `Zowe`. -/
theorem save_current_service_only_witness :
    getPassword kvSavedSmall zoweCliService acctW = none ∧
    getPassword kvSavedSmall SVC_NAME acctW = some vSmall := by
  have h := save_current_service_only false mgrW kvOld kvSavedSmall acctW vSmall rfl rfl rfl
  constructor
  · have h1 := h.1 zoweCliService acctW (by decide)
    rw [h1, if_pos ⟨by decide, rfl⟩]
  · exact h.2 (by decide)

theorem loadLoop_findSome (win32 : Bool) (kv : Vault) (account : Str) (fuel : Nat) :
    ∀ services : List Str,
    (∀ s, s ∈ services → (loadHelper win32 kv s account fuel).isSome = true) →
    loadLoop win32 kv account fuel services =
      some (services.findSome? (fun s => (loadHelper win32 kv s account fuel).join)) := by
  intro services
  induction services with
  | nil => intro _; simp [loadLoop]
  | cons s rest ih =>
    intro hdiv
    have hs := hdiv s (List.mem_cons_self s rest)
    rcases hv : loadHelper win32 kv s account fuel with _ | r
    · rw [hv] at hs
      simp at hs
    · cases r with
      | none =>
        simp only [loadLoop, hv]
        rw [ih (fun s' hs' => hdiv s' (List.mem_cons_of_mem _ hs'))]
        simp [List.findSome?_cons, hv]
      | some v =>
        simp only [loadLoop, hv]
        simp [List.findSome?_cons, hv]

/-- C4: `loadCredentials` consults the constructor's priority-ordered service
list — the current service first, then the historical services `@zowe/cli`,
`Zowe-Plugin`, `Broadcom-Plugin` — and returns the value of the first
service whose (chunk- and legacy-aware) lookup is non-null. -/
theorem load_first_service_hit (win32 : Bool) (mgr : DefaultCredentialManager)
    (kv : Vault) (account : Str) (fuel : Nat)
    (hml : mgr.keytarLoaded = true)
    (hdiv : ∀ s, s ∈ allServices mgr.service →
      (loadHelper win32 kv s account fuel).isSome = true) :
    allServices SVC_NAME = [SVC_NAME, zoweCliService, zowePluginService, broadcomPluginService] ∧
    loadCredentials win32 mgr kv account true fuel =
      some (.ok ((allServices mgr.service).findSome?
        (fun s => (loadHelper win32 kv s account fuel).join))) := by
  constructor
  · rfl
  · simp only [loadCredentials, checkForKeytar_ok hml]
    rw [loadLoop_findSome win32 kv account fuel (allServices mgr.service) hdiv]
    simp

/-- Witness for C4: with the value stored only under the historical
`Zowe-Plugin` service, load falls through `Zowe` and `@zowe/cli` and
returns the `Zowe-Plugin` hit. -/
theorem load_first_service_hit_witness :
    loadCredentials true mgrW kvPlugin acctW true 1 = some (.ok (some vSmall)) := by
  have h := (load_first_service_hit true mgrW kvPlugin acctW 1 rfl (by decide)).2
  rw [h]
  rfl

/-- C6: a required (non-optional) load fails with the missing-entry error
exactly when no service in the fallback list yields a value; an optional
load returns an absent value in that case, and a found value is returned
either way. -/
theorem required_load_fails_optional_absent (win32 : Bool)
    (mgr : DefaultCredentialManager) (kv : Vault) (account : Str) (fuel : Nat)
    (hml : mgr.keytarLoaded = true) :
    (loadLoop win32 kv account fuel (allServices mgr.service) = some none →
      loadCredentials win32 mgr kv account false fuel =
        some (.error (missingEntryError mgr account)) ∧
      loadCredentials win32 mgr kv account true fuel = some (.ok none)) ∧
    (∀ v, loadLoop win32 kv account fuel (allServices mgr.service) = some (some v) →
      loadCredentials win32 mgr kv account false fuel = some (.ok (some v))) := by
  constructor
  · intro hmiss
    constructor
    · simp [loadCredentials, checkForKeytar_ok hml, hmiss]
    · simp [loadCredentials, checkForKeytar_ok hml, hmiss]
  · intro v hhit
    simp [loadCredentials, checkForKeytar_ok hml, hhit]

/-- Witness for C6: on an empty vault the required load fails with the
missing-entry error and the optional load returns an absent value. -/
theorem required_load_fails_optional_absent_witness :
    loadCredentials true mgrW [] acctW false 1 = some (.error (missingEntryError mgrW acctW)) ∧
    loadCredentials true mgrW [] acctW true 1 = some (.ok none) :=
  (required_load_fails_optional_absent true mgrW [] acctW 1 rfl).1 (by decide)

/-- C5: a failed `initialize` records the cause in `loadError` without
throwing (the initializer is a total function), and every subsequent load,
save, or delete first checks this recorded state and fails with the
recorded error — carrying the original cause — without touching the vault
(the error result carries no vault, so the vault is left as it was). -/
theorem init_failure_recorded_and_reported (mgr0 mgr : DefaultCredentialManager)
    (cause : String) (win32 optional : Bool) (kv : Vault) (account v : Str) (fuel : Nat)
    (h0 : mgr0.keytarLoaded = false)
    (hinit : initializeCredMgr mgr0 (.error cause) = mgr) :
    mgr.loadError = some (keytarNotInstalledErr cause) ∧
    loadCredentials win32 mgr kv account optional fuel =
      some (.error (keytarNotInstalledErr cause)) ∧
    saveCredentials win32 mgr kv account v = .error (keytarNotInstalledErr cause) ∧
    deleteCredentials win32 mgr kv account = .error (keytarNotInstalledErr cause) := by
  subst hinit
  have hcheck : checkForKeytar (initializeCredMgr mgr0 (.error cause)) =
      .error (keytarNotInstalledErr cause) := by
    simp [initializeCredMgr, checkForKeytar, keytarNotInstalledErr, h0]
  refine ⟨by simp [initializeCredMgr, keytarNotInstalledErr], ?_, ?_, ?_⟩
  · simp [loadCredentials, hcheck]
  · simp [saveCredentials, hcheck]
  · simp [deleteCredentials, hcheck]

/-- Witness for C5: the concrete failed manager reports the recorded cause
on load, save and delete. -/
theorem init_failure_recorded_and_reported_witness :
    mgrFailed.loadError = some (keytarNotInstalledErr "Cannot find module keytar") ∧
    loadCredentials false mgrFailed [] acctW false 1 =
      some (.error (keytarNotInstalledErr "Cannot find module keytar")) ∧
    saveCredentials false mgrFailed [] acctW vSmall =
      .error (keytarNotInstalledErr "Cannot find module keytar") ∧
    deleteCredentials false mgrFailed [] acctW =
      .error (keytarNotInstalledErr "Cannot find module keytar") :=
  init_failure_recorded_and_reported { service := SVC_NAME } mgrFailed
    "Cannot find module keytar" false false [] acctW vSmall 1 rfl rfl

theorem getLast?_append_right {l₁ l₂ : Str} (h : l₂ ≠ []) :
    (l₁ ++ l₂).getLast? = l₂.getLast? :=
  List.getLast?_append_of_ne_nil l₁ h

theorem getLast?_drop_of_ne_nil {l : Str} {k : Nat} (h : l.drop k ≠ []) :
    (l.drop k).getLast? = l.getLast? := by
  conv_rhs => rw [← List.take_append_drop k l]
  rw [getLast?_append_right h]

theorem replaceFirst_ne_nil {s pat rep : Str} (hr : rep ≠ []) (hs : s ≠ []) :
    replaceFirst s pat rep ≠ [] := by
  rcases List.exists_cons_of_ne_nil hs with ⟨c, cs, rfl⟩
  by_cases hpf : isPfx pat (c :: cs) = true
  · simp only [replaceFirst, hpf, if_true]
    intro hc
    exact hr (List.append_eq_nil.mp hc).1
  · rw [Bool.not_eq_true] at hpf
    simp [replaceFirst, hpf]

theorem endsWithStr_step {c : Char} {cs pat : Str} (hne : pat ≠ c :: cs)
    (he : endsWithStr (c :: cs) pat = true) : endsWithStr cs pat = true := by
  rcases endsWithStr_exists.mp he with ⟨u, hu⟩
  cases u with
  | nil => exact absurd (by simpa using hu) hne.symm
  | cons d ds =>
    refine endsWithStr_exists.mpr ⟨ds, ?_⟩
    injection hu with _ h2

theorem replaceFirst_getLast {pat rep : Str} (hp : pat ≠ []) (hr : rep ≠ []) :
    ∀ s : Str, endsWithStr s pat = true →
    (replaceFirst s pat rep).getLast? = rep.getLast? ∨
    (replaceFirst s pat rep).getLast? = s.getLast? := by
  intro s
  induction s with
  | nil =>
    intro he
    rcases endsWithStr_exists.mp he with ⟨u, hu⟩
    exact absurd (List.append_eq_nil.mp hu.symm).2.symm (Ne.symm hp)
  | cons c cs ih =>
    intro he
    by_cases hpf : isPfx pat (c :: cs) = true
    · simp only [replaceFirst, hpf, if_true]
      by_cases hd : (c :: cs).drop pat.length = []
      · rw [hd, List.append_nil]
        exact Or.inl rfl
      · rw [getLast?_append_right hd, getLast?_drop_of_ne_nil hd]
        exact Or.inr rfl
    · rw [Bool.not_eq_true] at hpf
      have hne : pat ≠ c :: cs := by
        intro h; rw [h, isPfx_self] at hpf; cases hpf
      have he' := endsWithStr_step hne he
      have hcs : cs ≠ [] := by
        intro h
        rw [h] at he'
        rcases endsWithStr_exists.mp he' with ⟨u, hu⟩
        exact absurd (List.append_eq_nil.mp hu.symm).2.symm (Ne.symm hp)
      have hrf : replaceFirst cs pat rep ≠ [] := replaceFirst_ne_nil hr hcs
      simp only [replaceFirst, hpf, Bool.false_eq_true, if_false]
      rcases List.exists_cons_of_ne_nil hrf with ⟨d, ds, hds⟩
      rw [hds, List.getLast?_cons_cons, ← hds]
      rcases ih he' with h | h
      · exact Or.inl h
      · refine Or.inr ?_
        rw [h]
        rcases List.exists_cons_of_ne_nil hcs with ⟨e, es, hes⟩
        rw [hes, List.getLast?_cons_cons]

theorem natChars_last_digit (n : Nat) :
    ∃ d, d < 10 ∧ (natChars n).getLast? = some (digitToChar d) := by
  unfold natChars natCharsF
  by_cases h10 : n < 10
  · exact ⟨n, h10, by simp [h10]⟩
  · refine ⟨n % 10, Nat.mod_lt n (by omega), ?_⟩
    simp [h10, List.getLast?_concat]

theorem chunkAccount_last_digit (a : Str) (j : Nat) :
    ∃ d, d < 10 ∧ (chunkAccount a j).getLast? = some (digitToChar d) := by
  rcases natChars_last_digit j with ⟨d, hd, hlast⟩
  refine ⟨d, hd, ?_⟩
  unfold chunkAccount
  rw [getLast?_append_right (by simp)]
  rcases List.exists_cons_of_ne_nil (natChars_ne_nil j) with ⟨e, es, hes⟩
  rw [hes, List.getLast?_cons_cons, ← hes]
  exact hlast

theorem endsWithStr_getLast {s pat : Str} (hp : pat ≠ [])
    (he : endsWithStr s pat = true) : s.getLast? = pat.getLast? := by
  rcases endsWithStr_exists.mp he with ⟨u, rfl⟩
  exact getLast?_append_right hp

theorem saveCredentials_frame (win32 : Bool) (mgr : DefaultCredentialManager)
    (kv kvF : Vault) (account v : Str) (hml : mgr.keytarLoaded = true)
    (hsave : saveCredentials win32 mgr kv account v = .ok kvF)
    (s' b : Str) (hb1 : b ≠ account) (hb2 : ∀ j, 1 ≤ j → b ≠ chunkAccount account j) :
    getPassword kvF s' b = getPassword kv s' b := by
  rw [saveCredentials_eq hml win32 kv account v] at hsave
  injection hsave with hkvF
  subst hkvF
  rw [setCredentialsHelper_other win32 _ mgr.service account v s' b
    (fun hc => hb1 hc.2) (Or.inr hb2)]
  exact deleteCredentialsHelper_frame win32 mgr kv account true s' b hb1 hb2

/-- C9: legacy account-name variants are used only for reads — when the
chunk-aware lookup misses, an account ending in `_username` is retried
under `_user` and one ending in `_pass` under `_password` — while save
leaves every rewritten legacy account name untouched in the vault. -/
theorem legacy_names_read_only :
    (∀ (win32 : Bool) (kv : Vault) (service account : Str) (fuel : Nat) (v : Str),
      getCredentialsHelper win32 kv service account fuel = some none →
      endsWithStr account usernameSuffix = true →
      getPassword kv service (replaceFirst account usernameSuffix userSuffix) = some v →
      loadHelper win32 kv service account fuel = some (some v)) ∧
    (∀ (win32 : Bool) (kv : Vault) (service account : Str) (fuel : Nat) (v : Str),
      getCredentialsHelper win32 kv service account fuel = some none →
      endsWithStr account usernameSuffix = false →
      endsWithStr account passSuffix = true →
      getPassword kv service (replaceFirst account passSuffix passwordSuffix) = some v →
      loadHelper win32 kv service account fuel = some (some v)) ∧
    (∀ (win32 : Bool) (mgr : DefaultCredentialManager) (kv kvF : Vault) (account v : Str),
      mgr.keytarLoaded = true →
      saveCredentials win32 mgr kv account v = .ok kvF →
      (endsWithStr account usernameSuffix = true →
        ∀ s', getPassword kvF s' (replaceFirst account usernameSuffix userSuffix) =
          getPassword kv s' (replaceFirst account usernameSuffix userSuffix)) ∧
      (endsWithStr account passSuffix = true →
        ∀ s', getPassword kvF s' (replaceFirst account passSuffix passwordSuffix) =
          getPassword kv s' (replaceFirst account passSuffix passwordSuffix))) := by
  refine ⟨?_, ?_, ?_⟩
  · intro win32 kv service account fuel v hgc hu hget
    simp [loadHelper, hgc, hu, hget]
  · intro win32 kv service account fuel v hgc hu hpass hget
    simp [loadHelper, hgc, hu, hpass, hget]
  · intro win32 mgr kv kvF account v hml hsave
    constructor
    · intro hu s'
      have hacclen : usernameSuffix.length ≤ account.length := by
        rcases endsWithStr_exists.mp hu with ⟨w, rfl⟩
        simp
      have hlt : (replaceFirst account usernameSuffix userSuffix).length < account.length := by
        apply replaceFirst_length_lt (by decide) ?_ hu
        decide
      apply saveCredentials_frame win32 mgr kv kvF account v hml hsave
      · intro hc
        have := congrArg List.length hc
        omega
      · intro j hj hc
        have hclen := account_length_lt_chunk account j
        have := congrArg List.length hc
        omega
    · intro hp s'
      have hlen := @replaceFirst_length account passSuffix passwordSuffix (by decide) hp
      apply saveCredentials_frame win32 mgr kv kvF account v hml hsave
      · intro hc
        have := congrArg List.length hc
        have h5 : passSuffix.length = 5 := by decide
        have h9 : passwordSuffix.length = 9 := by decide
        omega
      · intro j hj hc
        rcases chunkAccount_last_digit account j with ⟨d, hd, hcl⟩
        have hdn := digitToChar_toNat hd
        rcases @replaceFirst_getLast passSuffix passwordSuffix
          (by decide) (by decide) account hp with hlast | hlast
        · rw [hc, hcl] at hlast
          have h1 : digitToChar d = 'd' := by
            have h2 : passwordSuffix.getLast? = some 'd' := by decide
            rw [h2] at hlast
            exact Option.some.inj hlast
          have := congrArg Char.toNat h1
          rw [hdn] at this
          have h100 : ('d' : Char).toNat = 100 := by decide
          omega
        · rw [hc, hcl, endsWithStr_getLast (by decide) hp] at hlast
          have h1 : digitToChar d = 's' := by
            have h2 : passSuffix.getLast? = some 's' := by decide
            rw [h2] at hlast
            exact Option.some.inj hlast
          have := congrArg Char.toNat h1
          rw [hdn] at this
          have h115 : ('s' : Char).toNat = 115 := by decide
          omega

/-- Witness for C9: an account ending in `_username` whose value is stored
only under the rewritten `_user` name is found by the read-side retry. -/
theorem legacy_names_read_only_witness :
    loadHelper false kvLegacy SVC_NAME acctUserLegacy 1 = some (some vSmall) :=
  legacy_names_read_only.1 false kvLegacy SVC_NAME acctUserLegacy 1 vSmall
    (by decide) (by decide) (by decide)

theorem deleteFromServices_of_none (a : Str) (keep : Bool) :
    ∀ (services : List Str) (kv : Vault) (w : Bool),
    (∀ s, s ∈ services → getPassword kv s a = none) →
    (deleteFromServices a keep services kv w).2 = kv := by
  intro services
  induction services with
  | nil => intro kv w _; rfl
  | cons s rest ih =>
    intro kv w hnone
    by_cases hskip : keep = true ∧ s = SVC_NAME
    · have hstep : deleteFromServices a keep (s :: rest) kv w =
          deleteFromServices a keep rest kv w := by
        simp only [deleteFromServices]
        rw [if_pos hskip]
      rw [hstep]
      exact ih kv w (fun s' hs' => hnone s' (List.mem_cons_of_mem _ hs'))
    · have hstep : deleteFromServices a keep (s :: rest) kv w =
          deleteFromServices a keep rest (deletePassword kv s a).2
            (w || (deletePassword kv s a).1) := by
        simp only [deleteFromServices]
        rw [if_neg ?_]
        intro hc
        exact hskip ⟨by rw [hc.1], hc.2⟩
      rw [hstep]
      have hdel : (deletePassword kv s a).2 = kv :=
        deletePassword_of_none (hnone s (List.mem_cons_self s rest))
      rw [hdel]
      exact ih kv _ (fun s' hs' => hnone s' (List.mem_cons_of_mem _ hs'))

theorem deleteCredentialsHelper_nil (win32 : Bool) (mgr : DefaultCredentialManager)
    (a : Str) (keep : Bool) : (deleteCredentialsHelper win32 mgr [] a keep).2 = [] := by
  have hdfs : (deleteFromServices a keep (allServices mgr.service) [] false).2 = [] :=
    deleteFromServices_of_none a keep _ [] false (fun _ _ => rfl)
  cases win32 with
  | false => simpa [deleteCredentialsHelper] using hdfs
  | true =>
    simp only [deleteCredentialsHelper, if_true]
    rw [hdfs]
    rfl

theorem loadHelper_all_none {win32 : Bool} {kv : Vault}
    (hall : ∀ s' b, getPassword kv s' b = none) {fuel : Nat} (hfuel : 1 ≤ fuel)
    (s a : Str) : loadHelper win32 kv s a fuel = some none := by
  have hgc : getCredentialsHelper win32 kv s a fuel = some none := by
    cases fuel with
    | zero => omega
    | succ fuel =>
      simp only [getCredentialsHelper, hall s a]
      cases win32 with
      | false => simp
      | true => simp [getChunksLoop, hall]
  simp only [loadHelper, hgc]
  cases hu : endsWithStr a usernameSuffix <;> cases hp : endsWithStr a passSuffix <;>
    simp [hu, hp, hall]

theorem loadLoop_all_none {win32 : Bool} {kv : Vault}
    (hall : ∀ s' b, getPassword kv s' b = none) {fuel : Nat} (hfuel : 1 ≤ fuel) (a : Str) :
    ∀ services : List Str, loadLoop win32 kv a fuel services = some none := by
  intro services
  induction services with
  | nil => rfl
  | cons s rest ih =>
    simp only [loadLoop, loadHelper_all_none hall hfuel s a]
    exact ih

theorem loadCredentials_all_none {win32 : Bool} {mgr : DefaultCredentialManager} {kv : Vault}
    (hml : mgr.keytarLoaded = true) (hall : ∀ s' b, getPassword kv s' b = none)
    {fuel : Nat} (hfuel : 1 ≤ fuel) (a : Str) :
    loadCredentials win32 mgr kv a true fuel = some (.ok none) := by
  simp [loadCredentials, checkForKeytar_ok hml, loadLoop_all_none hall hfuel a]

/-- C7: after a value was stored as numbered chunk entries (an oversized
save into an empty vault), deleting the account removes every chunk entry
`account-1`, `account-2`, …, not just the first, and a subsequent optional
load of the account returns an absent value. -/
theorem delete_removes_all_chunks (mgr : DefaultCredentialManager) (kv1 kv2 : Vault)
    (account v : Str) (fuel : Nat)
    (hml : mgr.keytarLoaded = true) (hsvc : mgr.service = SVC_NAME)
    (hlen : WIN32_CRED_MAX_STRING_LENGTH < v.length)
    (hsave : saveCredentials true mgr [] account v = .ok kv1)
    (hdel : deleteCredentials true mgr kv1 account = .ok kv2)
    (hfuel : 1 ≤ fuel) :
    (∀ i, 1 ≤ i → getPassword kv2 SVC_NAME (chunkAccount account i) = none) ∧
    loadCredentials true mgr kv2 account true fuel = some (.ok none) := by
  rw [saveCredentials_eq hml true [] account v] at hsave
  injection hsave with h1
  have hkv1 : kv1 = setCredentialsHelper true [] SVC_NAME account v := by
    rw [← h1, deleteCredentialsHelper_nil true mgr account true, hsvc]
  clear h1
  have hkv1_single : getPassword kv1 SVC_NAME account = none := by
    rw [hkv1, setCredentialsHelper_single, if_pos ⟨rfl, hlen⟩]
  have hkv1_other : ∀ s' b, s' ≠ SVC_NAME → getPassword kv1 s' b = none := by
    intro s' b hs'
    rw [hkv1, setCredentialsHelper_other true [] SVC_NAME account v s' b
      (fun hc => hs' hc.1) (Or.inl hs')]
    rfl
  have hkv1_nonchunk : ∀ b, b ≠ account → (∀ j, 1 ≤ j → b ≠ chunkAccount account j) →
      ∀ s', getPassword kv1 s' b = none := by
    intro b hb1 hb2 s'
    rw [hkv1, setCredentialsHelper_other true [] SVC_NAME account v s' b
      (fun hc => hb1 hc.2) (Or.inr hb2)]
    rfl
  have hkv1_iff : ∀ j, 1 ≤ j → ((getPassword kv1 SVC_NAME (chunkAccount account j)).isSome =
      true ↔ j ≤ (chunkifyF (v.length + 2) (v ++ [nulChar])).length) := by
    intro j hj
    rw [show j = 1 + (j - 1) from by omega]
    by_cases hjn : j - 1 < (chunkifyF (v.length + 2) (v ++ [nulChar])).length
    · rw [hkv1, setCredentialsHelper_chunks [] SVC_NAME account v hlen (j - 1) hjn]
      rw [List.get?_eq_get hjn]
      simp only [Option.isSome_some, true_iff]
      omega
    · rw [hkv1, setCredentialsHelper_chunks_beyond [] SVC_NAME account v hlen (j - 1)
        (by omega)]
      simp only [getPassword, Option.isSome_none, Bool.false_eq_true, false_iff]
      omega
  have hkvA : (deleteFromServices account false (allServices mgr.service) kv1 false).2 =
      kv1 := by
    apply deleteFromServices_of_none
    intro s hs
    by_cases hsv : s = SVC_NAME
    · rw [hsv]; exact hkv1_single
    · exact hkv1_other s account hsv
  have hdel2 : kv2 = (deleteChunksLoop account (kv1.length + 1) kv1 1).2 := by
    rw [show deleteCredentials true mgr kv1 account =
        .ok ((deleteCredentialsHelper true mgr kv1 account false).2) from by
      simp [deleteCredentials, checkForKeytar_ok hml]] at hdel
    injection hdel with h2
    rw [← h2]
    simp only [deleteCredentialsHelper, if_true]
    rw [hkvA]
  have hlen1 : kv1.length = (chunkifyF (v.length + 2) (v ++ [nulChar])).length := by
    rw [hkv1]
    unfold setCredentialsHelper
    rw [if_pos (show (true = true ∧ WIN32_CRED_MAX_STRING_LENGTH < v.length) from ⟨rfl, hlen⟩)]
    rw [show (deletePassword ([] : Vault) SVC_NAME account).2 = [] from rfl]
    have hwl := writeChunksLoop_length SVC_NAME account (v.length + 2) [] (v ++ [nulChar]) 1
      (fun j hj => rfl)
    simpa using hwl
  have hclear : ∀ j, 1 ≤ j → getPassword kv2 SVC_NAME (chunkAccount account j) = none := by
    intro j hj
    rw [hdel2]
    exact deleteChunksLoop_clears account (kv1.length + 1) kv1 1
      (chunkifyF (v.length + 2) (v ++ [nulChar])).length (fun j' hj' => hkv1_iff j' hj')
      (by omega) j hj
  refine ⟨hclear, ?_⟩
  have hall : ∀ s' b, getPassword kv2 s' b = none := by
    intro s' b
    by_cases hbc : ∃ j, 1 ≤ j ∧ b = chunkAccount account j
    · rcases hbc with ⟨j, hj, rfl⟩
      by_cases hs' : s' = SVC_NAME
      · rw [hs']
        exact hclear j hj
      · rw [hdel2, deleteChunksLoop_frame account _ _ _ s' _ (Or.inl hs')]
        exact hkv1_other s' _ hs'
    · have hb2 : ∀ j, 1 ≤ j → b ≠ chunkAccount account j :=
        fun j hj hc => hbc ⟨j, hj, hc⟩
      rw [hdel2, deleteChunksLoop_frame account _ _ _ s' b (Or.inr hb2)]
      by_cases hba : b = account
      · subst hba
        by_cases hs' : s' = SVC_NAME
        · rw [hs']
          exact hkv1_single
        · exact hkv1_other s' _ hs'
      · exact hkv1_nonchunk b hba hb2 s'
  exact loadCredentials_all_none hml hall hfuel account

/-- Witness for C7: deleting the concrete chunked save of `vBigW` clears
both chunk entries and a subsequent optional load reports absence. -/
theorem delete_removes_all_chunks_witness :
    getPassword kvBigDeleted SVC_NAME (chunkAccount acctW 1) = none ∧
    loadCredentials true mgrW kvBigDeleted acctW true 1 = some (.ok none) := by
  have h := delete_removes_all_chunks mgrW kvBigW kvBigDeleted acctW vBigW 1 rfl rfl
    (by unfold vBigW WIN32_CRED_MAX_STRING_LENGTH; rw [List.length_replicate]; omega)
    rfl rfl (le_refl 1)
  exact ⟨h.1 1 (le_refl 1), h.2⟩

/-- C10 (amended): the chunk-reassembly loop of `getCredentialsHelper`
terminates on a vault state exactly when either the chunk entry `account-1`
is absent, or the accumulated concatenation of the present chunk values up
to some index ends with the null terminator — missing intermediate indices
are skipped by the loop, not treated as the end of the sequence. -/
theorem chunk_loop_termination_iff (kv : Vault) (s a : Str) :
    chunkLoopTerminates kv s a ↔
      (getPassword kv s (chunkAccount a 1) = none ∨
        ∃ n, 1 ≤ n ∧ endsWithNul (accFrom kv s a 1 n) = true) := by
  constructor
  · rintro ⟨fuel, hsome⟩
    rcases hc1 : getPassword kv s (chunkAccount a 1) with _ | t
    · exact Or.inl rfl
    · refine Or.inr ?_
      rw [getChunksLoop_none_of_some (by rw [hc1]; rfl) fuel] at hsome
      rcases (getChunksLoop_isSome_iff fuel 1 []).mp hsome with ⟨m, hm1, _, hend⟩
      exact ⟨m, hm1, by simpa using hend⟩
  · intro h
    rcases hc1 : getPassword kv s (chunkAccount a 1) with _ | t
    · refine ⟨1, ?_⟩
      simp [getChunksLoop, hc1]
    · rcases h with h | ⟨n, hn1, hend⟩
      · rw [h] at hc1
        cases hc1
      · refine ⟨n, ?_⟩
        rw [getChunksLoop_none_of_some (by rw [hc1]; rfl) n]
        exact (getChunksLoop_isSome_iff n 1 []).mpr ⟨n, hn1, le_refl n, by simpa using hend⟩

/-- Witness for C10: on the empty vault chunk 1 is absent, so the loop
terminates. -/
theorem chunk_loop_termination_iff_witness : chunkLoopTerminates [] SVC_NAME acctW :=
  (chunk_loop_termination_iff [] SVC_NAME acctW).mpr (Or.inl rfl)

/-- Counterexample to C10 as stated: in `gapVault`, chunk 1 is present
without a terminator and chunk 2 is missing, so the claim's precondition —
a terminator inside the consecutive run `account-1`, `account-2`, … before
the first missing index — fails; yet the loop terminates, because it skips
the missing index 2 and finds the terminator in chunk 3. -/
theorem chunk_loop_termination_counterexample :
    ¬(getPassword gapVault SVC_NAME (chunkAccount acctW 1) = none ∨
      ∃ n, 1 ≤ n ∧
        (∀ i, 1 ≤ i → i ≤ n →
          (getPassword gapVault SVC_NAME (chunkAccount acctW i)).isSome = true) ∧
        endsWithNul ((getPassword gapVault SVC_NAME (chunkAccount acctW n)).getD []) =
          true) ∧
    chunkLoopTerminates gapVault SVC_NAME acctW := by
  constructor
  · rintro (h1 | ⟨n, hn1, hcons, hend⟩)
    · exact absurd h1 (by decide)
    · rcases n with _ | n
      · omega
      · rcases n with _ | n
        · exact absurd hend (by decide)
        · have h2 := hcons 2 (by omega) (by omega)
          exact absurd h2 (by decide)
  · exact ⟨3, by decide⟩

theorem assocGet_assocRemove (fb : CFields) (k k' : String) :
    assocGet (assocRemove fb k) k' = if k' = k then none else assocGet fb k' := by
  induction fb with
  | nil => simp [assocRemove, assocGet]
  | cons e rest ih =>
    rcases e with ⟨k1, v1⟩
    by_cases h1 : k1 = k
    · have hrm : assocRemove ((k1, v1) :: rest) k = assocRemove rest k := by
        simp [assocRemove, h1]
      rw [hrm, ih]
      by_cases h2 : k' = k
      · rw [if_pos h2, if_pos h2]
      · have h3 : ¬(k1 = k') := fun hc => h2 (hc.symm.trans h1)
        rw [if_neg h2, if_neg h2]
        simp [assocGet, h3]
    · have hrm : assocRemove ((k1, v1) :: rest) k = (k1, v1) :: assocRemove rest k := by
        simp [assocRemove, h1]
      rw [hrm]
      by_cases h2 : k1 = k'
      · have h3 : ¬(k' = k) := fun hc => h1 (h2.trans hc)
        simp [assocGet, h2, h3]
      · simp only [assocGet, h2, if_false]
        exact ih

theorem assocGet_dmergeFields : ∀ (fa fb : CFields) (k : String),
    assocGet (dmergeFields fa fb) k =
      match assocGet fa k, assocGet fb k with
      | some va, some vb => some (dmerge va vb)
      | some va, none => some va
      | none, o => o := by
  intro fa
  induction fa with
  | nil => intro fb k; simp [dmergeFields, assocGet]
  | cons e fa ih =>
    rcases e with ⟨k1, va⟩
    intro fb k
    rcases hfb : assocGet fb k1 with _ | vb
    · simp only [dmergeFields, hfb]
      by_cases h1 : k1 = k
      · subst h1
        simp [assocGet, hfb]
      · simp only [assocGet, h1, if_false]
        exact ih fb k
    · simp only [dmergeFields, hfb]
      by_cases h1 : k1 = k
      · subst h1
        simp [assocGet, hfb]
      · simp only [assocGet, h1, if_false]
        rw [ih (assocRemove fb k1) k, assocGet_assocRemove]
        have h2 : ¬(k = k1) := fun hc => h1 hc.symm
        simp [h2]

theorem dmerge_eq_left {a : CVal} (b : CVal) (h : isObjV a = false ∨ isObjV b = false) :
    dmerge a b = a := by
  cases a <;> cases b <;> simp_all [dmerge, isObjV]

theorem getPath_dmerge_left : ∀ (p : List String) (a b : CVal) (v : CVal),
    getPath p a = some v → isObjV v = false → getPath p (dmerge a b) = some v := by
  intro p
  induction p with
  | nil =>
    intro a b v hget hv
    have ha : a = v := Option.some.inj hget
    subst ha
    rw [dmerge_eq_left b (Or.inl hv)]
    exact hget
  | cons k rest ih =>
    intro a b v hget hv
    cases a with
    | vobj fa =>
      cases b with
      | vobj fb =>
        have hmerge : dmerge (.vobj fa) (.vobj fb) = .vobj (dmergeFields fa fb) := by
          simp [dmerge]
        rw [hmerge]
        simp only [getPath] at hget ⊢
        rcases hfa : assocGet fa k with _ | w
        · rw [hfa] at hget
          cases hget
        · rw [hfa] at hget
          rw [assocGet_dmergeFields fa fb k, hfa]
          rcases hfb : assocGet fb k with _ | vb
          · exact hget
          · exact ih w vb v hget hv
      | vbool b' => rw [dmerge_eq_left (CVal.vbool b') (Or.inr rfl)]; exact hget
      | vnum n => rw [dmerge_eq_left (CVal.vnum n) (Or.inr rfl)]; exact hget
      | vstr s => rw [dmerge_eq_left (CVal.vstr s) (Or.inr rfl)]; exact hget
      | varr xs => rw [dmerge_eq_left (CVal.varr xs) (Or.inr rfl)]; exact hget
    | vbool b' => simp [getPath] at hget
    | vnum n => simp [getPath] at hget
    | vstr s => simp [getPath] at hget
    | varr xs => simp [getPath] at hget

theorem getPath_dmerge_none : ∀ (p : List String) (a b : CVal),
    getPath p a = none → objAlong p a = true → getPath p (dmerge a b) = getPath p b := by
  intro p
  induction p with
  | nil => intro a b hget _; cases hget
  | cons k rest ih =>
    intro a b hget halong
    cases a with
    | vobj fa =>
      cases b with
      | vobj fb =>
        have hmerge : dmerge (.vobj fa) (.vobj fb) = .vobj (dmergeFields fa fb) := by
          simp [dmerge]
        rw [hmerge]
        simp only [getPath, objAlong] at hget halong ⊢
        rw [assocGet_dmergeFields fa fb k]
        rcases hfa : assocGet fa k with _ | w
        · rfl
        · rw [hfa] at hget halong
          rcases hfb : assocGet fb k with _ | vb
          · exact hget
          · exact ih w vb hget halong
      | vbool b' =>
        rw [dmerge_eq_left (CVal.vbool b') (Or.inr rfl), hget]
        rfl
      | vnum n =>
        rw [dmerge_eq_left (CVal.vnum n) (Or.inr rfl), hget]
        rfl
      | vstr s =>
        rw [dmerge_eq_left (CVal.vstr s) (Or.inr rfl), hget]
        rfl
      | varr xs =>
        rw [dmerge_eq_left (CVal.varr xs) (Or.inr rfl), hget]
        rfl
    | vbool b' => simp [objAlong] at halong
    | vnum n => simp [objAlong] at halong
    | vstr s => simp [objAlong] at halong
    | varr xs => simp [objAlong] at halong

theorem getPath_foldMerge_first : ∀ (hi : List CFields) (f : CFields) (lo : List CFields)
    (p : List String) (v : CVal), isObjV v = false →
    (∀ g, g ∈ hi → getPath p (.vobj g) = none ∧ objAlong p (.vobj g) = true) →
    getPath p (.vobj f) = some v →
    getPath p (.vobj (foldMergeF (hi ++ f :: lo))) = some v := by
  intro hi
  induction hi with
  | nil =>
    intro f lo p v hv _ hdef
    have hfold : foldMergeF (f :: lo) = dmergeFields f (foldMergeF lo) := rfl
    rw [List.nil_append, hfold]
    have hmerge : CVal.vobj (dmergeFields f (foldMergeF lo)) =
        dmerge (.vobj f) (.vobj (foldMergeF lo)) := by
      simp [dmerge]
    rw [hmerge]
    exact getPath_dmerge_left p _ _ v hdef hv
  | cons g hi ih =>
    intro f lo p v hv hhi hdef
    have hfold : foldMergeF ((g :: hi) ++ f :: lo) =
        dmergeFields g (foldMergeF (hi ++ f :: lo)) := rfl
    rw [hfold]
    have hmerge : CVal.vobj (dmergeFields g (foldMergeF (hi ++ f :: lo))) =
        dmerge (.vobj g) (.vobj (foldMergeF (hi ++ f :: lo))) := by
      simp [dmerge]
    rw [hmerge]
    have hg := hhi g (List.mem_cons_self g hi)
    rw [getPath_dmerge_none p _ _ hg.1 hg.2]
    exact ih f lo p v hv (fun g' hg' => hhi g' (List.mem_cons_of_mem _ hg')) hdef

/-- C2 (spec-modelled): the merged read view over the four layers resolves a
leaf property to the value of the highest-precedence layer that defines it
(precedence project-user > project > global-user > global, absent layers
contributing the empty skeleton), provided every higher-precedence layer
neither defines the path nor shadows it with a non-object node; in
particular a property present only in the lowest-precedence existing layer
is still visible in the merged view. -/
theorem merged_view_precedence (l0 l1 l2 l3 : Option CFields)
    (hi : List CFields) (f : CFields) (lo : List CFields)
    (p : List String) (v : CVal)
    (hleaf : isObjV v = false)
    (hdecomp : [layerFields l0, layerFields l1, layerFields l2, layerFields l3] =
      hi ++ f :: lo)
    (hhigher : ∀ g, g ∈ hi → getPath p (.vobj g) = none ∧ objAlong p (.vobj g) = true)
    (hdef : getPath p (.vobj f) = some v) :
    getPath p (.vobj (config4Merge l0 l1 l2 l3)) = some v := by
  unfold config4Merge
  rw [hdecomp]
  exact getPath_foldMerge_first hi f lo p v hleaf hhigher hdef

/-- Witness for C2: a property defined only in the lowest-precedence global
layer (the three higher layers absent) is visible in the merged view. -/
theorem merged_view_precedence_witness :
    getPath ["profiles", "fruit"]
      (.vobj (config4Merge none none none
        (some [("profiles", .vobj [("fruit", .vstr "apple")])]))) =
      some (.vstr "apple") := by
  apply merged_view_precedence none none none
    (some [("profiles", .vobj [("fruit", .vstr "apple")])])
    [layerFields none, layerFields none, layerFields none]
    (layerFields (some [("profiles", .vobj [("fruit", .vstr "apple")])])) []
    ["profiles", "fruit"] (.vstr "apple") rfl rfl ?_ rfl
  intro g hg
  rcases List.mem_cons.mp hg with rfl | hg'
  · exact ⟨rfl, rfl⟩
  rcases List.mem_cons.mp hg' with rfl | hg''
  · exact ⟨rfl, rfl⟩
  rcases List.mem_cons.mp hg'' with rfl | hg'''
  · exact ⟨rfl, rfl⟩
  · cases hg'''

theorem assocGet_assocSet (fields : CFields) (k : String) (v : CVal) (k' : String) :
    assocGet (assocSet fields k v) k' = if k' = k then some v else assocGet fields k' := by
  induction fields with
  | nil =>
    have hset : assocSet ([] : CFields) k v = [(k, v)] := rfl
    rw [hset]
    simp only [assocGet]
    by_cases h : k' = k
    · rw [if_pos h, if_pos h.symm]
    · rw [if_neg h, if_neg (fun hc => h hc.symm)]
  | cons e rest ih =>
    rcases e with ⟨k1, v1⟩
    by_cases h1 : k1 = k
    · have hset : assocSet ((k1, v1) :: rest) k v = (k, v) :: rest := by
        simp [assocSet, h1]
      rw [hset]
      simp only [assocGet]
      by_cases h2 : k' = k
      · rw [if_pos h2, if_pos h2.symm]
      · have h4 : ¬(k1 = k') := fun hc => h2 (hc.symm.trans h1)
        rw [if_neg h2, if_neg (fun hc => h2 hc.symm), if_neg h4]
    · have hset : assocSet ((k1, v1) :: rest) k v = (k1, v1) :: assocSet rest k v := by
        simp [assocSet, h1]
      rw [hset]
      simp only [assocGet]
      by_cases h2 : k1 = k'
      · have h3 : ¬(k' = k) := fun hc => h1 (h2.trans hc)
        rw [if_pos h2, if_neg h3, if_pos h2]
      · rw [if_neg h2, ih, if_neg h2]

theorem setSpine_nil : ∀ p : List String, setSpine p [] = true := by
  intro p
  cases p with
  | nil => rfl
  | cons k rest =>
    cases rest with
    | nil => rfl
    | cons k2 rest2 => simp [setSpine, assocGet]

theorem getPath_nil_of_cons (k : String) (rest : List String) :
    getPath (k :: rest) (.vobj []) = none := by
  simp [getPath, assocGet]

theorem getPath_cons (k : String) (p' : List String) (F : CFields) :
    getPath (k :: p') (.vobj F) =
      match assocGet F k with
      | some w => getPath p' w
      | none => none := rfl

theorem getPath_single (F : CFields) (k : String) :
    getPath [k] (.vobj F) = assocGet F k := by
  rw [getPath_cons]
  rcases h : assocGet F k with _ | w
  · rfl
  · rfl

theorem getPath_setPath : ∀ (p : List String) (fields : CFields) (value : CVal),
    p ≠ [] → setSpine p fields = true →
    getPath p (.vobj (setPath p value fields)) =
      some (if isArrV value = true then value
        else match getPath p (.vobj fields) with
          | some (.varr xs) => .varr (xs ++ [coerceScalar value])
          | _ => coerceScalar value) := by
  intro p
  induction p with
  | nil => intro fields value h _; exact absurd rfl h
  | cons k rest ih =>
    intro fields value _ hspine
    cases rest with
    | nil =>
      rw [getPath_single, getPath_single]
      by_cases harr : isArrV value = true
      · have hset : setPath [k] value fields = assocSet fields k value := by
          simp [setPath, harr]
        rw [hset, assocGet_assocSet, if_pos rfl]
        simp [harr]
      · rw [Bool.not_eq_true] at harr
        rcases hget : assocGet fields k with _ | w
        · have hset : setPath [k] value fields = assocSet fields k (coerceScalar value) := by
            simp [setPath, harr, hget]
          rw [hset, assocGet_assocSet, if_pos rfl]
          simp [harr]
        · cases w with
          | varr xs =>
            have hset : setPath [k] value fields =
                assocSet fields k (.varr (xs ++ [coerceScalar value])) := by
              simp [setPath, harr, hget]
            rw [hset, assocGet_assocSet, if_pos rfl]
            simp [harr]
          | vbool b =>
            have hset : setPath [k] value fields = assocSet fields k (coerceScalar value) := by
              simp [setPath, harr, hget]
            rw [hset, assocGet_assocSet, if_pos rfl]
            simp [harr]
          | vnum n =>
            have hset : setPath [k] value fields = assocSet fields k (coerceScalar value) := by
              simp [setPath, harr, hget]
            rw [hset, assocGet_assocSet, if_pos rfl]
            simp [harr]
          | vstr str =>
            have hset : setPath [k] value fields = assocSet fields k (coerceScalar value) := by
              simp [setPath, harr, hget]
            rw [hset, assocGet_assocSet, if_pos rfl]
            simp [harr]
          | vobj fs =>
            have hset : setPath [k] value fields = assocSet fields k (coerceScalar value) := by
              simp [setPath, harr, hget]
            rw [hset, assocGet_assocSet, if_pos rfl]
            simp [harr]
    | cons k2 rest2 =>
      have hne2 : (k2 :: rest2 : List String) ≠ [] := List.cons_ne_nil _ _
      simp only [setSpine] at hspine
      rcases hget : assocGet fields k with _ | w
      · rw [hget] at hspine
        have hstep : setPath (k :: k2 :: rest2) value fields =
            assocSet fields k (.vobj (setPath (k2 :: rest2) value [])) := by
          simp [setPath, hget]
        have hget2 : assocGet (assocSet fields k
            (.vobj (setPath (k2 :: rest2) value []))) k =
            some (.vobj (setPath (k2 :: rest2) value [])) := by
          rw [assocGet_assocSet, if_pos rfl]
        have hL : getPath (k :: k2 :: rest2)
            (.vobj (assocSet fields k (.vobj (setPath (k2 :: rest2) value [])))) =
            getPath (k2 :: rest2) (.vobj (setPath (k2 :: rest2) value [])) := by
          rw [getPath_cons, hget2]
        rw [hstep, hL]
        rw [ih [] value hne2 (setSpine_nil _), getPath_nil_of_cons]
        rw [getPath_cons, hget]
      · rw [hget] at hspine
        cases w with
        | vobj sub =>
          have hstep : setPath (k :: k2 :: rest2) value fields =
              assocSet fields k (.vobj (setPath (k2 :: rest2) value sub)) := by
            simp [setPath, hget]
          have hget2 : assocGet (assocSet fields k
              (.vobj (setPath (k2 :: rest2) value sub))) k =
              some (.vobj (setPath (k2 :: rest2) value sub)) := by
            rw [assocGet_assocSet, if_pos rfl]
          have hL : getPath (k :: k2 :: rest2)
              (.vobj (assocSet fields k (.vobj (setPath (k2 :: rest2) value sub)))) =
              getPath (k2 :: rest2) (.vobj (setPath (k2 :: rest2) value sub)) := by
            rw [getPath_cons, hget2]
          rw [hstep, hL]
          rw [ih sub value hne2 hspine]
          rw [getPath_cons k (k2 :: rest2) fields, hget]
        | varr xs => cases hspine
        | vbool b => cases hspine
        | vnum n => cases hspine
        | vstr str => cases hspine

/-- C8: `Config.set` on the active layer stores the coerced value: the
literal strings "true"/"false" coerce to booleans, an integer-pattern
string coerces to a number, all other strings stay strings, a passed array
replaces the target outright, and a scalar set at a path currently holding
an array is appended to the array.  AMENDED from the claim: setting a
non-array value at a path that previously held an array APPENDS to the
array (it does not replace it); only passing an array value replaces an
existing array.  The original claim is internally contradictory, asserting
both behaviours at once; the repository's own test suite shows the append
behaviour. -/
theorem set_coercion_append (p : List String) (fields : CFields) (value : CVal)
    (s : String) (hp : p ≠ []) (hspine : setSpine p fields = true) :
    (coerceScalar (.vstr "true") = .vbool true) ∧
    (coerceScalar (.vstr "false") = .vbool false) ∧
    (s ≠ "true" → s ≠ "false" → isIntString s = true →
      coerceScalar (.vstr s) = .vnum (parseIntStr s)) ∧
    (s ≠ "true" → s ≠ "false" → isIntString s = false →
      coerceScalar (.vstr s) = .vstr s) ∧
    (isArrV value = true →
      getPath p (.vobj (setPath p value fields)) = some value) ∧
    (∀ xs, isArrV value = false →
      getPath p (.vobj fields) = some (.varr xs) →
      getPath p (.vobj (setPath p value fields)) =
        some (.varr (xs ++ [coerceScalar value]))) ∧
    (∀ cur, isArrV value = false →
      getPath p (.vobj fields) = some cur → isArrV cur = false →
      getPath p (.vobj (setPath p value fields)) = some (coerceScalar value)) ∧
    (isArrV value = false → getPath p (.vobj fields) = none →
      getPath p (.vobj (setPath p value fields)) = some (coerceScalar value)) := by
  refine ⟨rfl, rfl, ?_, ?_, ?_, ?_, ?_, ?_⟩
  · intro h1 h2 h3
    simp [coerceScalar, h1, h2, h3]
  · intro h1 h2 h3
    simp [coerceScalar, h1, h2, h3]
  · intro harr
    rw [getPath_setPath p fields value hp hspine, if_pos harr]
  · intro xs harr hcur
    rw [getPath_setPath p fields value hp hspine, hcur]
    rw [if_neg (by simp [harr])]
  · intro cur harr hcur hna
    cases cur with
    | varr xs => simp [isArrV] at hna
    | vbool b =>
      rw [getPath_setPath p fields value hp hspine, hcur]
      rw [if_neg (by simp [harr])]
    | vnum n =>
      rw [getPath_setPath p fields value hp hspine, hcur]
      rw [if_neg (by simp [harr])]
    | vstr str =>
      rw [getPath_setPath p fields value hp hspine, hcur]
      rw [if_neg (by simp [harr])]
    | vobj fs =>
      rw [getPath_setPath p fields value hp hspine, hcur]
      rw [if_neg (by simp [harr])]
  · intro harr hcur
    rw [getPath_setPath p fields value hp hspine, hcur]
    rw [if_neg (by simp [harr])]

/-- Witness for C8 at path `["a"]`, the empty active layer, the scalar
string value `"sweet"` and the integer-pattern string `"21"`. -/
theorem set_coercion_append_witness :
    (["a"] : List String) ≠ [] ∧ setSpine ["a"] [] = true ∧
    ((coerceScalar (.vstr "true") = .vbool true) ∧
    (coerceScalar (.vstr "false") = .vbool false) ∧
    ("21" ≠ "true" → "21" ≠ "false" → isIntString "21" = true →
      coerceScalar (.vstr "21") = .vnum (parseIntStr "21")) ∧
    ("21" ≠ "true" → "21" ≠ "false" → isIntString "21" = false →
      coerceScalar (.vstr "21") = .vstr "21") ∧
    (isArrV (CVal.vstr "sweet") = true →
      getPath ["a"] (.vobj (setPath ["a"] (.vstr "sweet") [])) =
        some (.vstr "sweet")) ∧
    (∀ xs, isArrV (CVal.vstr "sweet") = false →
      getPath ["a"] (.vobj ([] : CFields)) = some (.varr xs) →
      getPath ["a"] (.vobj (setPath ["a"] (.vstr "sweet") [])) =
        some (.varr (xs ++ [coerceScalar (.vstr "sweet")]))) ∧
    (∀ cur, isArrV (CVal.vstr "sweet") = false →
      getPath ["a"] (.vobj ([] : CFields)) = some cur → isArrV cur = false →
      getPath ["a"] (.vobj (setPath ["a"] (.vstr "sweet") [])) =
        some (coerceScalar (.vstr "sweet"))) ∧
    (isArrV (CVal.vstr "sweet") = false →
      getPath ["a"] (.vobj ([] : CFields)) = none →
      getPath ["a"] (.vobj (setPath ["a"] (.vstr "sweet") [])) =
        some (coerceScalar (.vstr "sweet")))) :=
  ⟨by simp, rfl,
    set_coercion_append ["a"] [] (.vstr "sweet") "21" (by simp) rfl⟩

/-- Counterexample to C8 as stated: after setting the array `[]` at path
`a` and then setting the scalar string `"sweet"` at the same path, the
value at `a` is the array `["sweet"]` — the scalar was appended to the
previously-stored array, not substituted for it, contradicting the
claim's clause that a non-array value set at a path that previously held
an array "replaces the array entirely". -/
theorem set_scalar_on_array_counterexample :
    getPath ["a"] (.vobj (setPath ["a"] (.vstr "sweet")
      (setPath ["a"] (.varr []) []))) = some (.varr [.vstr "sweet"]) ∧
    getPath ["a"] (.vobj (setPath ["a"] (.vstr "sweet")
      (setPath ["a"] (.varr []) []))) ≠ some (.vstr "sweet") := by
  constructor
  · rfl
  · intro h
    rw [show getPath ["a"] (.vobj (setPath ["a"] (.vstr "sweet")
      (setPath ["a"] (.varr []) []))) = some (.varr [.vstr "sweet"]) from rfl] at h
    exact CVal.noConfusion (Option.some.inj h)
